import Mathlib

/-
Verification of the binary-spectrum delay estimator of
src/trunk/modules/audio_processing/utility/delay_estimator.c
(DoubangoTelecom/webrtc-audioproc).

The C code is shallowly embedded: uint32 values are Nat below 2^32 (the
wrap-around of uint32 subtraction and addition is explicit in wsub32 and
wadd32), int32 quantities are Int, the malloc'ed buffers of the
BinaryDelayEstimator struct are Lists, and each helper loop of
WebRtc_ProcessBinarySpectrum is one definition (nearStage, meanUpdate,
candidateScan, minProbUpdate, decisionUpdate) so that the state update is
their literal composition.
-/

/-- Population count of a natural number. -/
def popcount : Nat → Nat
  | 0 => 0
  | n + 1 => (n + 1) % 2 + popcount ((n + 1) / 2)

/-- uint32 wrap-around subtraction. -/
def wsub32 (a b : Nat) : Nat := (a + 4294967296 - b % 4294967296) % 4294967296

/-- uint32 wrap-around addition. -/
def wadd32 (a b : Nat) : Nat := (a + b) % 4294967296

/-- BitCount from delay_estimator.c. -/
def BitCount (u32 : Nat) : Nat :=
  let t1 := wsub32 (wsub32 u32 ((u32 >>> 1) &&& 3681400539)) ((u32 >>> 2) &&& 1227133513)
  let t2 := (wadd32 t1 (t1 >>> 3)) &&& 3340530119
  let t3 := wadd32 t2 (t2 >>> 6)
  (wadd32 (wadd32 t3 (t3 >>> 12)) (t3 >>> 24)) &&& 63

/-- Sum over base-8 digits. -/
def octSum (f : Nat → Nat) : Nat → Nat → Nat
  | 0, _ => 0
  | n + 1, u => f (u % 8) + 8 * octSum f n (u / 8)

/-- Mask with n identical octal digits d. -/
def mrep (d : Nat) : Nat → Nat
  | 0 => 0
  | n + 1 => d + 8 * mrep d n

/-- Popcount of a 3-bit digit. -/
def pc3 (d : Nat) : Nat := d % 2 + d / 2 % 2 + d / 4 % 2

/-- Stages 2-4 of BitCount, as a function of the first stage's output. -/
def BitCountTail (t1 : Nat) : Nat :=
  let t2 := (wadd32 t1 (t1 >>> 3)) &&& 3340530119
  let t3 := wadd32 t2 (t2 >>> 6)
  (wadd32 (wadd32 t3 (t3 >>> 12)) (t3 >>> 24)) &&& 63

/-- Unweighted sum of pc3 over the first n base-8 digits. -/
def pcSum : Nat → Nat → Nat
  | 0, _ => 0
  | n + 1, u => pc3 (u % 8) + pcSum n (u / 8)

/-- BitCountComparison from delay_estimator.c: Hamming distance of the vector
against every matrix row. -/
def BitCountComparison (binary_vector : Nat) (binary_matrix : List Nat) : List Int :=
  binary_matrix.map (fun row => (BitCount (binary_vector ^^^ row) : Int))

/-- The BinaryDelayEstimator state struct from delay_estimator.h. -/
structure BinaryDelayEstimator where
  mean_bit_counts : List Int
  bit_counts : List Int
  binary_far_history : List Nat
  far_bit_counts : List Nat
  binary_near_history : List Nat
  history_size : Nat
  near_history_size : Nat
  minimum_probability : Int
  last_delay_probability : Int
  last_delay : Int
deriving DecidableEq

/-- WebRtc_CreateBinaryDelayEstimator: succeeds iff max_delay >= 0, lookahead >= 0
and max_delay + lookahead > 1.  The malloc'ed buffers are uninitialized in C; they
are modelled as zero-filled and every property is stated about states that went
through WebRtc_InitBinaryDelayEstimator, which overwrites all of them. -/
def WebRtc_CreateBinaryDelayEstimator (max_delay lookahead : Int) :
    Option BinaryDelayEstimator :=
  if 0 ≤ max_delay ∧ 0 ≤ lookahead ∧ 1 < max_delay + lookahead then
    some
      { mean_bit_counts := List.replicate (max_delay + lookahead).toNat 0
        bit_counts := List.replicate (max_delay + lookahead).toNat 0
        binary_far_history := List.replicate (max_delay + lookahead).toNat 0
        far_bit_counts := List.replicate (max_delay + lookahead).toNat 0
        binary_near_history := List.replicate (lookahead + 1).toNat 0
        history_size := (max_delay + lookahead).toNat
        near_history_size := (lookahead + 1).toNat
        minimum_probability := 0
        last_delay_probability := 0
        last_delay := 0 }
  else none

/-- WebRtc_InitBinaryDelayEstimator. -/
def WebRtc_InitBinaryDelayEstimator (handle : BinaryDelayEstimator) :
    BinaryDelayEstimator :=
  { handle with
    bit_counts := List.replicate handle.history_size 0
    binary_far_history := List.replicate handle.history_size 0
    binary_near_history := List.replicate handle.near_history_size 0
    far_bit_counts := List.replicate handle.history_size 0
    mean_bit_counts := List.replicate handle.history_size 10240
    minimum_probability := 16384
    last_delay_probability := 16384
    last_delay := -2 }

/-- WebRtc_MeanEstimatorFix.  The C right shift acts on a non-negative int in
both branches, so it is a logical shift of the absolute value. -/
def WebRtc_MeanEstimatorFix (new_value : Int) (factor : Nat) (mean_value : Int) :
    Int :=
  let diff := new_value - mean_value
  let step := if diff < 0 then -(((-diff).toNat >>> factor : Nat) : Int)
    else (((diff.toNat >>> factor : Nat) : Int))
  mean_value + step

/-- Shift a history buffer right by one and insert w at index 0
(the two memmove-and-store steps in WebRtc_ProcessBinarySpectrum). -/
def shiftIn {α : Type} (w : α) (xs : List α) : List α := w :: xs.dropLast

/-- Near-end history handling of WebRtc_ProcessBinarySpectrum: with lookahead,
shift the near history, insert the current word and pull out the delayed one;
without lookahead use the current word directly. -/
def nearStage (handle : BinaryDelayEstimator) (binary_near_spectrum : Nat) :
    List Nat × Nat :=
  if 1 < handle.near_history_size then
    let nh := shiftIn binary_near_spectrum handle.binary_near_history
    (nh, nh.getD (handle.near_history_size - 1) 0)
  else (handle.binary_near_history, binary_near_spectrum)

/-- The mean_bit_counts update loop of WebRtc_ProcessBinarySpectrum. -/
def meanUpdate (bit_counts : List Int) (far_bit_counts : List Nat)
    (mean_bit_counts : List Int) : List Int :=
  (mean_bit_counts.zip (bit_counts.zip far_bit_counts)).map
    (fun q =>
      if 0 < q.2.2 then
        WebRtc_MeanEstimatorFix (q.2.1 * 512) (13 - (3 * q.2.2) >>> 4) q.1
      else q.1)

/-- One step of the candidate scan: acc = (candidate_delay, best, worst). -/
def scanStep (acc : Int × Int × Int) (p : Nat × Int) : Int × Int × Int :=
  ((if p.2 < acc.2.1 then (p.1 : Int) else acc.1),
   (if p.2 < acc.2.1 then p.2 else acc.2.1),
   (if p.2 > acc.2.2 then p.2 else acc.2.2))

/-- The candidate scan loop of WebRtc_ProcessBinarySpectrum, yielding
(candidate_delay, value_best_candidate, value_worst_candidate). -/
def candidateScan (mean_bit_counts : List Int) : Int × Int × Int :=
  mean_bit_counts.enum.foldl scanStep (-1, 16384, 0)

/-- The minimum_probability update of WebRtc_ProcessBinarySpectrum. -/
def minProbUpdate (minimum_probability value_best_candidate
    value_worst_candidate : Int) : Int :=
  if 8704 < minimum_probability ∧
      2816 < value_worst_candidate - value_best_candidate then
    let threshold := value_best_candidate + 1024
    let threshold2 := if threshold < 8704 then 8704 else threshold
    if threshold2 < minimum_probability then threshold2 else minimum_probability
  else minimum_probability

/-- The last_delay / last_delay_probability decision block of
WebRtc_ProcessBinarySpectrum; returns (last_delay, last_delay_probability). -/
def decisionUpdate (minimum_probability last_delay last_delay_probability
    candidate_delay value_best_candidate value_worst_candidate : Int) :
    Int × Int :=
  let ldp := last_delay_probability + 1
  if value_best_candidate + 1024 < value_worst_candidate then
    let ld1 := if value_best_candidate < minimum_probability then candidate_delay
      else last_delay
    if value_best_candidate < ldp then (candidate_delay, value_best_candidate)
    else (ld1, ldp)
  else (last_delay, ldp)

/-- WebRtc_ProcessBinarySpectrum: one frame update; returns the new state and
the returned delay. -/
def WebRtc_ProcessBinarySpectrum (handle : BinaryDelayEstimator)
    (binary_far_spectrum binary_near_spectrum : Nat) :
    BinaryDelayEstimator × Int :=
  let binary_far_history := shiftIn binary_far_spectrum handle.binary_far_history
  let far_bit_counts := shiftIn (BitCount binary_far_spectrum) handle.far_bit_counts
  let near := nearStage handle binary_near_spectrum
  let bit_counts := BitCountComparison near.2 binary_far_history
  let mean_bit_counts := meanUpdate bit_counts far_bit_counts handle.mean_bit_counts
  let scan := candidateScan mean_bit_counts
  let minimum_probability := minProbUpdate handle.minimum_probability scan.2.1 scan.2.2
  let dec := decisionUpdate minimum_probability handle.last_delay
    handle.last_delay_probability scan.1 scan.2.1 scan.2.2
  ({ handle with
      binary_far_history := binary_far_history
      far_bit_counts := far_bit_counts
      binary_near_history := near.1
      bit_counts := bit_counts
      mean_bit_counts := mean_bit_counts
      minimum_probability := minimum_probability
      last_delay_probability := dec.2
      last_delay := dec.1 },
   dec.1)

/-- WebRtc_binary_last_delay. -/
def WebRtc_binary_last_delay (handle : BinaryDelayEstimator) : Int :=
  handle.last_delay

/-- Run a sequence of (far, near) frames through the estimator. -/
def runProcess (handle : BinaryDelayEstimator) :
    List (Nat × Nat) → BinaryDelayEstimator
  | [] => handle
  | p :: ps => runProcess (WebRtc_ProcessBinarySpectrum handle p.1 p.2).1 ps

def histAfter (L : Nat) (nears : List Nat) : List Nat :=
  (nears.reverse ++ List.replicate (L + 1) 0).take (L + 1)

def stC : BinaryDelayEstimator :=
  { mean_bit_counts := [0, 0]
    bit_counts := [0, 0]
    binary_far_history := [0, 0]
    far_bit_counts := [0, 0]
    binary_near_history := [0, 0]
    history_size := 2
    near_history_size := 2
    minimum_probability := 0
    last_delay_probability := 0
    last_delay := 0 }

/-- All internal invariants preserved by WebRtc_ProcessBinarySpectrum on states
reachable from create + init with uint32 inputs. -/
structure WF (st : BinaryDelayEstimator) : Prop where
  hs2 : 2 ≤ st.history_size
  nhs1 : 1 ≤ st.near_history_size
  far_len : st.binary_far_history.length = st.history_size
  fbc_len : st.far_bit_counts.length = st.history_size
  near_len : st.binary_near_history.length = st.near_history_size
  bits_len : st.bit_counts.length = st.history_size
  mean_len : st.mean_bit_counts.length = st.history_size
  mean_lb : ∀ m ∈ st.mean_bit_counts, 0 ≤ m
  mean_ub : ∀ m ∈ st.mean_bit_counts, m < 16384
  far_words : ∀ w ∈ st.binary_far_history, w < 4294967296
  near_words : ∀ w ∈ st.binary_near_history, w < 4294967296
  fbc_le : ∀ c ∈ st.far_bit_counts, c ≤ 32
  minp_lb : 8704 ≤ st.minimum_probability
  minp_ub : st.minimum_probability ≤ 16384
  ld_ok : st.last_delay = -2 ∨ (0 ≤ st.last_delay ∧ st.last_delay < (st.history_size : Int))

theorem land_decomp (k a b x y : Nat) (hx : x < 2 ^ k) (hy : y < 2 ^ k) :
    (2 ^ k * a + x) &&& (2 ^ k * b + y) = 2 ^ k * (a &&& b) + (x &&& y) := by
  have hxy : x &&& y < 2 ^ k := Nat.lt_of_le_of_lt Nat.and_le_left hx
  apply Nat.eq_of_testBit_eq
  intro i
  rw [Nat.testBit_and, Nat.testBit_mul_pow_two_add a hx, Nat.testBit_mul_pow_two_add b hy,
      Nat.testBit_mul_pow_two_add (a &&& b) hxy]
  by_cases h : i < k
  · simp [h]
  · simp [h]

theorem land_decomp8 (a b x y : Nat) (hx : x < 8) (hy : y < 8) :
    (8 * a + x) &&& (8 * b + y) = 8 * (a &&& b) + (x &&& y) := by
  have := land_decomp 3 a b x y (by norm_num [hx]) (by norm_num [hy])
  norm_num at this
  exact this

theorem land_decomp64 (a b x y : Nat) (hx : x < 64) (hy : y < 64) :
    (64 * a + x) &&& (64 * b + y) = 64 * (a &&& b) + (x &&& y) := by
  have := land_decomp 6 a b x y (by norm_num [hx]) (by norm_num [hy])
  norm_num at this
  exact this

theorem land_one (x : Nat) : x &&& 1 = x % 2 := by
  simpa using Nat.and_pow_two_sub_one_eq_mod x 1

theorem land_three (x : Nat) : x &&& 3 = x % 4 := by
  have := Nat.and_pow_two_sub_one_eq_mod x 2
  norm_num at this
  exact this

theorem land_seven (x : Nat) : x &&& 7 = x % 8 := by
  have := Nat.and_pow_two_sub_one_eq_mod x 3
  norm_num at this
  exact this

theorem land_63 (x : Nat) : x &&& 63 = x % 64 := by
  have := Nat.and_pow_two_sub_one_eq_mod x 6
  norm_num at this
  exact this

theorem maskhalf (n : Nat) : ∀ u : Nat, (u / 2) &&& mrep 3 n = octSum (fun d => d / 2) n u := by
  induction n with
  | zero => intro u; simp [mrep, octSum]
  | succ n ih =>
    intro u
    have hu2 : u / 2 = 8 * (u / 8 / 2) + (4 * (u / 8 % 2) + u % 8 / 2) := by omega
    have hlow : 4 * (u / 8 % 2) + u % 8 / 2 < 8 := by omega
    have hmask : mrep 3 (n + 1) = 8 * mrep 3 n + 3 := by simp [mrep]; omega
    rw [hu2, hmask, land_decomp8 _ _ _ _ hlow (by norm_num), land_three, ih (u / 8)]
    simp only [octSum]
    have : (4 * (u / 8 % 2) + u % 8 / 2) % 4 = u % 8 / 2 := by omega
    rw [this]
    ring

theorem maskquarter (n : Nat) : ∀ u : Nat,
    (u / 4) &&& mrep 1 n = octSum (fun d => d / 4) n u := by
  induction n with
  | zero => intro u; simp [mrep, octSum]
  | succ n ih =>
    intro u
    have hu4 : u / 4 = 8 * (u / 8 / 4) + (2 * (u / 8 % 4) + u % 8 / 4) := by omega
    have hlow : 2 * (u / 8 % 4) + u % 8 / 4 < 8 := by omega
    have hmask : mrep 1 (n + 1) = 8 * mrep 1 n + 1 := by simp [mrep]; omega
    rw [hu4, hmask, land_decomp8 _ _ _ _ hlow (by norm_num), land_one, ih (u / 8)]
    simp only [octSum]
    have : (2 * (u / 8 % 4) + u % 8 / 4) % 2 = u % 8 / 4 := by omega
    rw [this]
    ring

theorem octSum_add (f g : Nat → Nat) (n : Nat) : ∀ u,
    octSum f n u + octSum g n u = octSum (fun d => f d + g d) n u := by
  induction n with
  | zero => intro u; simp [octSum]
  | succ n ih =>
    intro u
    simp only [octSum]
    rw [← ih (u / 8)]
    ring

theorem octSum_congr (f g : Nat → Nat) (h : ∀ d, d < 8 → f d = g d) (n : Nat) :
    ∀ u, octSum f n u = octSum g n u := by
  induction n with
  | zero => intro u; simp [octSum]
  | succ n ih =>
    intro u
    simp only [octSum]
    rw [h (u % 8) (by omega), ih (u / 8)]

theorem octSum_id (n : Nat) : ∀ u, u < 8 ^ n → octSum (fun d => d) n u = u := by
  induction n with
  | zero => intro u h; interval_cases u; simp [octSum]
  | succ n ih =>
    intro u h
    simp only [octSum]
    rw [ih (u / 8) (by rw [pow_succ] at h; omega)]
    omega

/-- Extract the base-c digit x from w = L + c * (x + 64 * H). -/
theorem digit_extract (c L x H w : Nat) (hc : 0 < c) (hL : L < c) (hx : x < 64)
    (hw : w = L + c * (x + 64 * H)) : w / c % 64 = x := by
  subst hw
  rw [Nat.add_mul_div_left _ _ hc, Nat.div_eq_of_lt hL]
  simp [Nat.mul_comm 64 H, Nat.mod_eq_of_lt hx]

/-- Extract the top digit from w = L + c * x. -/
theorem digit_top (c L x w : Nat) (hc : 0 < c) (hL : L < c) (hw : w = L + c * x) :
    w / c = x := by
  subst hw
  calc (L + c * x) / c = L / c + x := Nat.add_mul_div_left _ _ hc
    _ = x := by rw [Nat.div_eq_of_lt hL]; omega

theorem land_peel64 (w m : Nat) : w &&& (64 * m + 7) = 64 * ((w / 64) &&& m) + (w % 64) % 8 := by
  calc w &&& (64 * m + 7)
      = (64 * (w / 64) + w % 64) &&& (64 * m + 7) := by rw [Nat.div_add_mod]
    _ = 64 * ((w / 64) &&& m) + ((w % 64) &&& 7) := land_decomp64 _ _ _ _ (by omega) (by norm_num)
    _ = 64 * ((w / 64) &&& m) + (w % 64) % 8 := by rw [land_seven]

theorem BitCount_as_tail (u : Nat) :
    BitCount u = BitCountTail
      (wsub32 (wsub32 u ((u >>> 1) &&& 3681400539)) ((u >>> 2) &&& 1227133513)) := rfl

theorem pair_digits (d0 d1 d2 d3 d4 d5 d6 d7 d8 d9 d10 w : Nat)
    (b0 : d0 ≤ 3) (b1 : d1 ≤ 3) (b2 : d2 ≤ 3) (b3 : d3 ≤ 3) (b4 : d4 ≤ 3) (b5 : d5 ≤ 3)
    (b6 : d6 ≤ 3) (b7 : d7 ≤ 3) (b8 : d8 ≤ 3) (b9 : d9 ≤ 3) (b10 : d10 ≤ 3)
    (hw : w = (d0+d1) + 8*(d1+d2) + 64*(d2+d3) + 512*(d3+d4) + 4096*(d4+d5)
      + 32768*(d5+d6) + 262144*(d6+d7) + 2097152*(d7+d8) + 16777216*(d8+d9)
      + 134217728*(d9+d10) + 1073741824*d10) :
    w % 64 % 8 = d0 + d1 ∧ w / 64 % 64 % 8 = d2 + d3 ∧ w / 4096 % 64 % 8 = d4 + d5 ∧
    w / 262144 % 64 % 8 = d6 + d7 ∧ w / 16777216 % 64 % 8 = d8 + d9 ∧
    w / 1073741824 % 4 = d10 := by
  refine ⟨by omega, ?_, ?_, ?_, ?_, ?_⟩
  · have h := digit_extract 64 ((d0+d1) + 8*(d1+d2)) ((d2+d3) + 8*(d3+d4)) ((d4+d5)
        + 8*(d5+d6) + 64*((d6+d7) + 8*(d7+d8) + 64*((d8+d9) + 8*(d9+d10) + 64*d10))) w
      (by norm_num) (by omega) (by omega) (by omega)
    omega
  · have h := digit_extract 4096 ((d0+d1) + 8*(d1+d2) + 64*((d2+d3) + 8*(d3+d4)))
      ((d4+d5) + 8*(d5+d6)) ((d6+d7) + 8*(d7+d8) + 64*((d8+d9) + 8*(d9+d10) + 64*d10)) w
      (by norm_num) (by omega) (by omega) (by omega)
    omega
  · have h := digit_extract 262144 ((d0+d1) + 8*(d1+d2) + 64*((d2+d3) + 8*(d3+d4))
        + 4096*((d4+d5) + 8*(d5+d6))) ((d6+d7) + 8*(d7+d8))
      ((d8+d9) + 8*(d9+d10) + 64*d10) w
      (by norm_num) (by omega) (by omega) (by omega)
    omega
  · have h := digit_extract 16777216 ((d0+d1) + 8*(d1+d2) + 64*((d2+d3) + 8*(d3+d4))
        + 4096*((d4+d5) + 8*(d5+d6)) + 262144*((d6+d7) + 8*(d7+d8)))
      ((d8+d9) + 8*(d9+d10)) d10 w
      (by norm_num) (by omega) (by omega) (by omega)
    omega
  · have h := digit_top 1073741824 ((d0+d1) + 8*(d1+d2) + 64*((d2+d3) + 8*(d3+d4))
        + 4096*((d4+d5) + 8*(d5+d6)) + 262144*((d6+d7) + 8*(d7+d8))
        + 16777216*((d8+d9) + 8*(d9+d10))) d10 w
      (by norm_num) (by omega) (by omega)
    omega

theorem stage2 (d0 d1 d2 d3 d4 d5 d6 d7 d8 d9 d10 : Nat)
    (b0 : d0 ≤ 3) (b1 : d1 ≤ 3) (b2 : d2 ≤ 3) (b3 : d3 ≤ 3) (b4 : d4 ≤ 3) (b5 : d5 ≤ 3)
    (b6 : d6 ≤ 3) (b7 : d7 ≤ 3) (b8 : d8 ≤ 3) (b9 : d9 ≤ 3) (b10 : d10 ≤ 3) (v : Nat)
    (hv : v = d0 + 8*d1 + 64*d2 + 512*d3 + 4096*d4 + 32768*d5 + 262144*d6 + 2097152*d7
        + 16777216*d8 + 134217728*d9 + 1073741824*d10) :
    (wadd32 v (v >>> 3)) &&& 3340530119
      = 64 * (64 * (64 * (64 * (64 * d10 + (d8 + d9)) + (d6 + d7)) + (d4 + d5))
          + (d2 + d3)) + (d0 + d1) := by
  have hv8 : v / 8 = d1 + 8*d2 + 64*d3 + 512*d4 + 4096*d5 + 32768*d6 + 262144*d7
      + 2097152*d8 + 16777216*d9 + 134217728*d10 := by omega
  have hnw : wadd32 v (v >>> 3) = v + v / 8 := by
    rw [wadd32, Nat.shiftRight_eq_div_pow]
    have h8 : v / 2 ^ 3 = v / 8 := by norm_num
    rw [h8]
    apply Nat.mod_eq_of_lt
    omega
  rw [hnw]
  have hw : v + v / 8 = (d0+d1) + 8*(d1+d2) + 64*(d2+d3) + 512*(d3+d4) + 4096*(d4+d5)
      + 32768*(d5+d6) + 262144*(d6+d7) + 2097152*(d7+d8) + 16777216*(d8+d9)
      + 134217728*(d9+d10) + 1073741824*d10 := by omega
  set w := v + v / 8 with hwdef
  clear_value w
  clear hv hv8 hnw hwdef
  have e1 : w &&& 3340530119 = 64 * ((w / 64) &&& 52195783) + (w % 64) % 8 := by
    have h : (3340530119 : Nat) = 64 * 52195783 + 7 := by norm_num
    rw [h, land_peel64]
  have e2 : (w / 64) &&& 52195783 = 64 * ((w / 64 / 64) &&& 815559) + (w / 64 % 64) % 8 := by
    have h : (52195783 : Nat) = 64 * 815559 + 7 := by norm_num
    rw [h, land_peel64]
  have e3 : (w / 64 / 64) &&& 815559
      = 64 * ((w / 64 / 64 / 64) &&& 12743) + (w / 64 / 64 % 64) % 8 := by
    have h : (815559 : Nat) = 64 * 12743 + 7 := by norm_num
    rw [h, land_peel64]
  have e4 : (w / 64 / 64 / 64) &&& 12743
      = 64 * ((w / 64 / 64 / 64 / 64) &&& 199) + (w / 64 / 64 / 64 % 64) % 8 := by
    have h : (12743 : Nat) = 64 * 199 + 7 := by norm_num
    rw [h, land_peel64]
  have e5 : (w / 64 / 64 / 64 / 64) &&& 199
      = 64 * ((w / 64 / 64 / 64 / 64 / 64) &&& 3) + (w / 64 / 64 / 64 / 64 % 64) % 8 := by
    have h : (199 : Nat) = 64 * 3 + 7 := by norm_num
    rw [h, land_peel64]
  have e6 : (w / 64 / 64 / 64 / 64 / 64) &&& 3 = w / 64 / 64 / 64 / 64 / 64 % 4 :=
    land_three _
  rw [e1, e2, e3, e4, e5, e6]
  clear e1 e2 e3 e4 e5 e6
  have n5 : w / 64 / 64 / 64 / 64 / 64 = w / 1073741824 := by omega
  have n4 : w / 64 / 64 / 64 / 64 = w / 16777216 := by omega
  have n3 : w / 64 / 64 / 64 = w / 262144 := by omega
  have n2 : w / 64 / 64 = w / 4096 := by omega
  rw [n5, n4, n3, n2]
  clear n2 n3 n4 n5
  obtain ⟨hS0, hS1, hS2, hS3, hS4, hS5⟩ :=
    pair_digits d0 d1 d2 d3 d4 d5 d6 d7 d8 d9 d10 w
      b0 b1 b2 b3 b4 b5 b6 b7 b8 b9 b10 hw
  rw [hS0, hS1, hS2, hS3, hS4, hS5]

theorem stage34 (S0 S1 S2 S3 S4 S5 t2 : Nat)
    (c0 : S0 ≤ 6) (c1 : S1 ≤ 6) (c2 : S2 ≤ 6) (c3 : S3 ≤ 6) (c4 : S4 ≤ 6) (c5 : S5 ≤ 3)
    (ht2 : t2 = S0 + 64 * S1 + 4096 * S2 + 262144 * S3 + 16777216 * S4 + 1073741824 * S5) :
    (wadd32 (wadd32 (wadd32 t2 (t2 >>> 6)) ((wadd32 t2 (t2 >>> 6)) >>> 12))
        ((wadd32 t2 (t2 >>> 6)) >>> 24)) &&& 63
      = S0 + S1 + S2 + S3 + S4 + S5 := by
  simp only [wadd32, Nat.shiftRight_eq_div_pow]
  norm_num
  rw [land_63]
  have h64 : t2 / 64 = S1 + 64 * S2 + 4096 * S3 + 262144 * S4 + 16777216 * S5 := by omega
  have hm1 : (t2 + t2 / 64) % 4294967296 = t2 + t2 / 64 := by
    apply Nat.mod_eq_of_lt; omega
  rw [hm1]
  have h4096 : (t2 + t2 / 64) / 4096
      = (S2 + S3) + 64 * (S3 + S4) + 4096 * (S4 + S5) + 262144 * S5 := by omega
  have h16m : (t2 + t2 / 64) / 16777216 = (S4 + S5) + 64 * S5 := by omega
  have hm3 : (t2 + t2 / 64 + (t2 + t2 / 64) / 4096 + (t2 + t2 / 64) / 16777216) % 4294967296
      = t2 + t2 / 64 + (t2 + t2 / 64) / 4096 + (t2 + t2 / 64) / 16777216 := by
    apply Nat.mod_eq_of_lt; omega
  rw [hm3]
  omega

theorem tail_stages (d0 d1 d2 d3 d4 d5 d6 d7 d8 d9 d10 : Nat)
    (b0 : d0 ≤ 3) (b1 : d1 ≤ 3) (b2 : d2 ≤ 3) (b3 : d3 ≤ 3) (b4 : d4 ≤ 3) (b5 : d5 ≤ 3)
    (b6 : d6 ≤ 3) (b7 : d7 ≤ 3) (b8 : d8 ≤ 3) (b9 : d9 ≤ 3) (b10 : d10 ≤ 3) (v : Nat)
    (hv : v = d0 + 8*d1 + 64*d2 + 512*d3 + 4096*d4 + 32768*d5 + 262144*d6 + 2097152*d7
        + 16777216*d8 + 134217728*d9 + 1073741824*d10) :
    BitCountTail v = d0 + d1 + d2 + d3 + d4 + d5 + d6 + d7 + d8 + d9 + d10 := by
  simp only [BitCountTail]
  rw [stage2 d0 d1 d2 d3 d4 d5 d6 d7 d8 d9 d10 b0 b1 b2 b3 b4 b5 b6 b7 b8 b9 b10 v hv]
  have h := stage34 (d0 + d1) (d2 + d3) (d4 + d5) (d6 + d7) (d8 + d9) d10
    (64 * (64 * (64 * (64 * (64 * d10 + (d8 + d9)) + (d6 + d7)) + (d4 + d5))
        + (d2 + d3)) + (d0 + d1))
    (by omega) (by omega) (by omega) (by omega) (by omega) (by omega) (by ring)
  rw [h]
  ring

theorem pc3_le3 (d : Nat) : pc3 d ≤ 3 := by
  simp only [pc3]
  omega

theorem popcount_step (u : Nat) : popcount u = u % 2 + popcount (u / 2) := by
  cases u with
  | zero => simp [popcount]
  | succ n => simp [popcount]

theorem popcount_oct (u : Nat) : popcount u = pc3 (u % 8) + popcount (u / 8) := by
  have h1 := popcount_step u
  have h2 := popcount_step (u / 2)
  have h3 := popcount_step (u / 4)
  have e1 : popcount (u / 2 / 2) = popcount (u / 4) := by
    have h : u / 2 / 2 = u / 4 := by omega
    rw [h]
  have e2 : popcount (u / 4 / 2) = popcount (u / 8) := by
    have h : u / 4 / 2 = u / 8 := by omega
    rw [h]
  have hpc3 : pc3 (u % 8) = u % 2 + u / 2 % 2 + u / 4 % 2 := by
    simp only [pc3]
    omega
  omega

theorem pcSum_eq (n : Nat) : ∀ u, u < 8 ^ n → popcount u = pcSum n u := by
  induction n with
  | zero => intro u h; interval_cases u; simp [popcount, pcSum]
  | succ n ih =>
    intro u h
    have h8 : 8 ^ (n + 1) = 8 * 8 ^ n := by ring
    rw [h8] at h
    rw [popcount_oct, pcSum, ih (u / 8) (by omega)]

theorem popcount_le (n : Nat) : ∀ u, u < 2 ^ n → popcount u ≤ n := by
  induction n with
  | zero => intro u h; interval_cases u; simp [popcount]
  | succ n ih =>
    intro u h
    rw [popcount_step]
    have hp : 2 ^ (n + 1) = 2 * 2 ^ n := by ring
    rw [hp] at h
    have h2 : u / 2 < 2 ^ n := by omega
    have := ih (u / 2) h2
    omega

theorem BitCount_eq_popcount (u : Nat) (hu : u < 4294967296) : BitCount u = popcount u := by
  rw [BitCount_as_tail]
  have hM1 : (3681400539 : Nat) = mrep 3 11 := by norm_num [mrep]
  have hM2 : (1227133513 : Nat) = mrep 1 11 := by norm_num [mrep]
  have hA : (u >>> 1) &&& 3681400539 = octSum (fun d => d / 2) 11 u := by
    rw [Nat.shiftRight_eq_div_pow, hM1]
    have h : u / 2 ^ 1 = u / 2 := by norm_num
    rw [h, maskhalf]
  have hB : (u >>> 2) &&& 1227133513 = octSum (fun d => d / 4) 11 u := by
    rw [Nat.shiftRight_eq_div_pow, hM2]
    have h : u / 2 ^ 2 = u / 4 := by norm_num
    rw [h, maskquarter]
  have h811 : u < 8 ^ 11 := by norm_num; omega
  have key : octSum (fun d => d / 2) 11 u + octSum (fun d => d / 4) 11 u
      + octSum pc3 11 u = u := by
    calc octSum (fun d => d / 2) 11 u + octSum (fun d => d / 4) 11 u + octSum pc3 11 u
        = octSum (fun d => d / 2 + d / 4) 11 u + octSum pc3 11 u := by
          rw [octSum_add]
      _ = octSum (fun d => d / 2 + d / 4 + pc3 d) 11 u := by
          rw [octSum_add]
      _ = octSum (fun d => d) 11 u := octSum_congr _ _
          (by intro d hd; simp only [pc3]; omega) 11 u
      _ = u := octSum_id 11 u h811
  have ht1 : wsub32 (wsub32 u ((u >>> 1) &&& 3681400539)) ((u >>> 2) &&& 1227133513)
      = octSum pc3 11 u := by
    rw [hA, hB, wsub32, wsub32]
    omega
  rw [ht1]
  have hnest : octSum pc3 11 u
      = pc3 (u % 8) + 8 * (pc3 (u / 8 % 8) + 8 * (pc3 (u / 8 / 8 % 8)
        + 8 * (pc3 (u / 8 / 8 / 8 % 8) + 8 * (pc3 (u / 8 / 8 / 8 / 8 % 8)
        + 8 * (pc3 (u / 8 / 8 / 8 / 8 / 8 % 8) + 8 * (pc3 (u / 8 / 8 / 8 / 8 / 8 / 8 % 8)
        + 8 * (pc3 (u / 8 / 8 / 8 / 8 / 8 / 8 / 8 % 8)
        + 8 * (pc3 (u / 8 / 8 / 8 / 8 / 8 / 8 / 8 / 8 % 8)
        + 8 * (pc3 (u / 8 / 8 / 8 / 8 / 8 / 8 / 8 / 8 / 8 % 8)
        + 8 * (pc3 (u / 8 / 8 / 8 / 8 / 8 / 8 / 8 / 8 / 8 / 8 % 8) + 8 * 0)))))))))) := rfl
  have hv : octSum pc3 11 u
      = pc3 (u % 8) + 8 * pc3 (u / 8 % 8) + 64 * pc3 (u / 8 / 8 % 8)
        + 512 * pc3 (u / 8 / 8 / 8 % 8) + 4096 * pc3 (u / 8 / 8 / 8 / 8 % 8)
        + 32768 * pc3 (u / 8 / 8 / 8 / 8 / 8 % 8)
        + 262144 * pc3 (u / 8 / 8 / 8 / 8 / 8 / 8 % 8)
        + 2097152 * pc3 (u / 8 / 8 / 8 / 8 / 8 / 8 / 8 % 8)
        + 16777216 * pc3 (u / 8 / 8 / 8 / 8 / 8 / 8 / 8 / 8 % 8)
        + 134217728 * pc3 (u / 8 / 8 / 8 / 8 / 8 / 8 / 8 / 8 / 8 % 8)
        + 1073741824 * pc3 (u / 8 / 8 / 8 / 8 / 8 / 8 / 8 / 8 / 8 / 8 % 8) := by
    rw [hnest]
    ring
  rw [tail_stages _ _ _ _ _ _ _ _ _ _ _
    (pc3_le3 _) (pc3_le3 _) (pc3_le3 _) (pc3_le3 _) (pc3_le3 _) (pc3_le3 _)
    (pc3_le3 _) (pc3_le3 _) (pc3_le3 _) (pc3_le3 _) (pc3_le3 _)
    (octSum pc3 11 u) hv]
  have hps : pcSum 11 u
      = pc3 (u % 8) + (pc3 (u / 8 % 8) + (pc3 (u / 8 / 8 % 8)
        + (pc3 (u / 8 / 8 / 8 % 8) + (pc3 (u / 8 / 8 / 8 / 8 % 8)
        + (pc3 (u / 8 / 8 / 8 / 8 / 8 % 8) + (pc3 (u / 8 / 8 / 8 / 8 / 8 / 8 % 8)
        + (pc3 (u / 8 / 8 / 8 / 8 / 8 / 8 / 8 % 8)
        + (pc3 (u / 8 / 8 / 8 / 8 / 8 / 8 / 8 / 8 % 8)
        + (pc3 (u / 8 / 8 / 8 / 8 / 8 / 8 / 8 / 8 / 8 % 8)
        + (pc3 (u / 8 / 8 / 8 / 8 / 8 / 8 / 8 / 8 / 8 / 8 % 8) + 0)))))))))) := rfl
  have hp : popcount u = pcSum 11 u := pcSum_eq 11 u h811
  omega

theorem shiftIn_length {α : Type} (w : α) (xs : List α) (h : 0 < xs.length) :
    (shiftIn w xs).length = xs.length := by
  simp [shiftIn]
  omega

theorem mem_shiftIn {α : Type} (w x : α) (xs : List α) (h : x ∈ shiftIn w xs) :
    x = w ∨ x ∈ xs := by
  simp only [shiftIn, List.mem_cons] at h
  rcases h with h | h
  · exact Or.inl h
  · exact Or.inr (List.dropLast_subset xs h)

theorem getD_mem_or_default {α : Type} [Inhabited α] (xs : List α) (i : Nat) (d : α) :
    xs.getD i d ∈ xs ∨ xs.getD i d = d := by
  by_cases h : i < xs.length
  · left
    rw [List.getD_eq_getElem xs d h]
    exact List.getElem_mem h
  · right
    rw [List.getD_eq_default xs d (by omega)]

theorem minProbUpdate_le (mp b w : Int) : minProbUpdate mp b w ≤ mp := by
  simp only [minProbUpdate]
  split_ifs <;> omega

theorem minProbUpdate_lb (mp b w : Int) (h : 8704 ≤ mp) :
    8704 ≤ minProbUpdate mp b w := by
  simp only [minProbUpdate]
  split_ifs <;> omega

theorem decisionUpdate_cases (mp ld ldp cd b w : Int) :
    (decisionUpdate mp ld ldp cd b w).1 = ld ∨ (decisionUpdate mp ld ldp cd b w).1 = cd := by
  simp only [decisionUpdate]
  split_ifs <;> simp

/-- WebRtc_MeanEstimatorFix keeps the mean inside [0, 16384) whenever the target
value is in [0, 16384] and at least one right shift is applied. -/
theorem meanFix_bounds (nv m : Int) (f : Nat) (hm0 : 0 ≤ m) (hm1 : m < 16384)
    (hn0 : 0 ≤ nv) (hn1 : nv ≤ 16384) (hf : 1 ≤ f) :
    0 ≤ WebRtc_MeanEstimatorFix nv f m ∧ WebRtc_MeanEstimatorFix nv f m < 16384 := by
  simp only [WebRtc_MeanEstimatorFix, Nat.shiftRight_eq_div_pow]
  have hpow : (2 : Nat) ^ f = 2 * 2 ^ (f - 1) := by
    cases f with
    | zero => omega
    | succ g =>
      rw [pow_succ, Nat.succ_sub_one]
      ring
  by_cases hlt : nv - m < 0
  · rw [if_pos hlt]
    have h2 : (-(nv - m)).toNat = (m - nv).toNat := by omega
    rw [h2]
    generalize hq : (m - nv).toNat / 2 ^ f = q
    have h3 : q ≤ (m - nv).toNat := by
      rw [← hq]
      exact Nat.div_le_self _ _
    omega
  · rw [if_neg hlt]
    generalize hq : (nv - m).toNat / 2 ^ f = q
    have h4 : q ≤ (nv - m).toNat / 2 := by
      rw [← hq, hpow, ← Nat.div_div_eq_div_mul]
      exact Nat.div_le_self _ _
    omega

-- ===== candidate scan characterization =====

theorem foldl_min_le_init (l : List Int) : ∀ b : Int, l.foldl min b ≤ b := by
  induction l with
  | nil => intro b; simp
  | cons x xs ih =>
    intro b
    simp only [List.foldl_cons]
    calc xs.foldl min (min b x) ≤ min b x := ih _
      _ ≤ b := min_le_left _ _

theorem foldl_min_le_mem (l : List Int) : ∀ (b x : Int), x ∈ l → l.foldl min b ≤ x := by
  induction l with
  | nil => intro b x hx; simp at hx
  | cons y ys ih =>
    intro b x hx
    simp only [List.foldl_cons]
    rcases List.mem_cons.mp hx with rfl | hx2
    · calc ys.foldl min (min b x) ≤ min b x := foldl_min_le_init _ _
        _ ≤ x := min_le_right _ _
    · exact ih _ _ hx2

theorem foldl_min_const (l : List Int) : ∀ b : Int, (∀ x ∈ l, b ≤ x) →
    l.foldl min b = b := by
  induction l with
  | nil => intro b _; simp
  | cons x xs ih =>
    intro b hall
    simp only [List.foldl_cons]
    have hbx : min b x = b := by
      have := hall x (by simp)
      omega
    rw [hbx]
    exact ih b (fun z hz => hall z (by simp [hz]))

theorem foldl_min_mem_or (l : List Int) : ∀ b : Int,
    l.foldl min b = b ∨ l.foldl min b ∈ l := by
  induction l with
  | nil => intro b; simp
  | cons x xs ih =>
    intro b
    simp only [List.foldl_cons]
    rcases ih (min b x) with h | h
    · rw [h, min_def]
      split_ifs with hc
      · exact Or.inl rfl
      · exact Or.inr (by simp)
    · exact Or.inr (by simp [h])

theorem foldl_max_init_le (l : List Int) : ∀ b : Int, b ≤ l.foldl max b := by
  induction l with
  | nil => intro b; simp
  | cons x xs ih =>
    intro b
    simp only [List.foldl_cons]
    calc b ≤ max b x := le_max_left _ _
      _ ≤ xs.foldl max (max b x) := ih _

theorem foldl_max_mem_le (l : List Int) : ∀ (b x : Int), x ∈ l → x ≤ l.foldl max b := by
  induction l with
  | nil => intro b x hx; simp at hx
  | cons y ys ih =>
    intro b x hx
    simp only [List.foldl_cons]
    rcases List.mem_cons.mp hx with rfl | hx2
    · calc x ≤ max b x := le_max_right _ _
        _ ≤ ys.foldl max (max b x) := foldl_max_init_le _ _
    · exact ih _ _ hx2

theorem foldl_max_mem_or (l : List Int) : ∀ b : Int,
    l.foldl max b = b ∨ l.foldl max b ∈ l := by
  induction l with
  | nil => intro b; simp
  | cons x xs ih =>
    intro b
    simp only [List.foldl_cons]
    rcases ih (max b x) with h | h
    · rw [h, max_def]
      split_ifs with hc
      · exact Or.inr (by simp)
      · exact Or.inl rfl
    · exact Or.inr (by simp [h])

theorem scanStep_eq (cd b w : Int) (k : Nat) (x : Int) :
    scanStep (cd, b, w) (k, x)
      = ((if x < b then (k : Int) else cd), min b x, max w x) := by
  have h1 : (if x < b then x else b) = min b x := by
    rw [min_def]
    split_ifs <;> omega
  have h2 : (if x > w then x else w) = max w x := by
    rw [max_def]
    split_ifs <;> omega
  simp only [scanStep, h1, h2]

theorem scan_best_worst (l : List Int) : ∀ (k : Nat) (cd b w : Int),
    ((l.enumFrom k).foldl scanStep (cd, b, w)).2.1 = l.foldl min b ∧
    ((l.enumFrom k).foldl scanStep (cd, b, w)).2.2 = l.foldl max w := by
  induction l with
  | nil => intro k cd b w; simp
  | cons x xs ih =>
    intro k cd b w
    simp only [List.enumFrom_cons, List.foldl_cons, scanStep_eq]
    exact ih (k + 1) _ _ _

theorem scan_argmin (l : List Int) : ∀ (k : Nat) (cd b w : Int),
    ((∀ x ∈ l, b ≤ x) → ((l.enumFrom k).foldl scanStep (cd, b, w)).1 = cd) ∧
    ((∃ x ∈ l, x < b) → ∃ i, i < l.length ∧
      ((l.enumFrom k).foldl scanStep (cd, b, w)).1 = ((k + i : Nat) : Int) ∧
      l.getD i 0 = ((l.enumFrom k).foldl scanStep (cd, b, w)).2.1 ∧
      ∀ j, j < i → ((l.enumFrom k).foldl scanStep (cd, b, w)).2.1 < l.getD j 0) := by
  induction l with
  | nil => intro k cd b w; simp
  | cons x xs ih =>
    intro k cd b w
    simp only [List.enumFrom_cons, List.foldl_cons, scanStep_eq]
    constructor
    · intro hall
      have hxb : b ≤ x := hall x (by simp)
      rw [if_neg (by omega), min_eq_left hxb]
      exact (ih (k + 1) cd b (max w x)).1 (fun y hy => hall y (by simp [hy]))
    · intro hex
      by_cases hxb : x < b
      · rw [if_pos hxb, min_eq_right (by omega)]
        by_cases hall : ∀ y ∈ xs, x ≤ y
        · have hfold : ((xs.enumFrom (k + 1)).foldl scanStep ((k : Int), x, max w x)).1
              = (k : Int) := (ih (k + 1) (k : Int) x (max w x)).1 hall
          have hbw := (scan_best_worst xs (k + 1) (k : Int) x (max w x)).1
          have hmin : xs.foldl min x = x := foldl_min_const xs x hall
          refine ⟨0, by simp, ?_, ?_, ?_⟩
          · rw [hfold]
            simp
          · rw [hbw, hmin]
            simp
          · intro j hj
            omega
        · push_neg at hall
          obtain ⟨y, hy, hyx⟩ := hall
          obtain ⟨i, hi, h1, h2, h3⟩ := (ih (k + 1) (k : Int) x (max w x)).2 ⟨y, hy, hyx⟩
          refine ⟨i + 1, by simp; omega, ?_, ?_, ?_⟩
          · rw [h1]
            push_cast
            ring
          · simpa using h2
          · intro j hj
            cases j with
            | zero =>
              have hbw := (scan_best_worst xs (k + 1) (k : Int) x (max w x)).1
              have hle : ((xs.enumFrom (k + 1)).foldl scanStep ((k : Int), x, max w x)).2.1
                  ≤ y := by
                rw [hbw]
                exact foldl_min_le_mem xs x y hy
              simp only [List.getD_cons_zero]
              omega
            | succ j2 =>
              have := h3 j2 (by omega)
              simpa using this
      · rw [if_neg hxb, min_eq_left (by omega)]
        have hex2 : ∃ y ∈ xs, y < b := by
          rcases hex with ⟨y, hy, hyb⟩
          rcases List.mem_cons.mp hy with rfl | hy2
          · omega
          · exact ⟨y, hy2, hyb⟩
        obtain ⟨y2, hy2, hy2b⟩ := hex2
        obtain ⟨i, hi, h1, h2, h3⟩ := (ih (k + 1) cd b (max w x)).2 ⟨y2, hy2, hy2b⟩
        refine ⟨i + 1, by simp; omega, ?_, ?_, ?_⟩
        · rw [h1]
          push_cast
          ring
        · simpa using h2
        · intro j hj
          cases j with
          | zero =>
            have hbw := (scan_best_worst xs (k + 1) cd b (max w x)).1
            have hle : ((xs.enumFrom (k + 1)).foldl scanStep (cd, b, max w x)).2.1
                ≤ y2 := by
              rw [hbw]
              exact foldl_min_le_mem xs b y2 hy2
            simp only [List.getD_cons_zero]
            omega
          | succ j2 =>
            have := h3 j2 (by omega)
            simpa using this

theorem candidateScan_spec (ms : List Int) (h0 : 0 < ms.length)
    (hub : ∀ m ∈ ms, m < 16384) :
    0 ≤ (candidateScan ms).1 ∧ (candidateScan ms).1 < (ms.length : Int) ∧
    (candidateScan ms).2.1 < 16384 := by
  have hex : ∃ x ∈ ms, x < 16384 := by
    cases ms with
    | nil => simp at h0
    | cons x xs => exact ⟨x, by simp, hub x (by simp)⟩
  obtain ⟨i, hi, h1, h2, _⟩ := (scan_argmin ms 0 (-1) 16384 0).2 hex
  unfold candidateScan
  rw [List.enum_eq_enumFrom]
  refine ⟨?_, ?_, ?_⟩
  · rw [h1]
    positivity
  · rw [h1]
    push_cast
    omega
  · rw [← h2]
    have hmem : ms.getD i 0 ∈ ms := by
      rw [List.getD_eq_getElem ms 0 hi]
      exact List.getElem_mem hi
    exact hub _ hmem

theorem meanUpdate_length (bits : List Int) (fbcs : List Nat) (means : List Int) :
    (meanUpdate bits fbcs means).length
      = min means.length (min bits.length fbcs.length) := by
  simp [meanUpdate]

theorem meanUpdate_getD : ∀ (means bits : List Int) (fbcs : List Nat) (i : Nat),
    i < means.length → i < bits.length → i < fbcs.length →
    (meanUpdate bits fbcs means).getD i 0
      = if 0 < fbcs.getD i 0 then
          WebRtc_MeanEstimatorFix (bits.getD i 0 * 512) (13 - (3 * fbcs.getD i 0) >>> 4)
            (means.getD i 0)
        else means.getD i 0 := by
  intro means
  induction means with
  | nil => intro bits fbcs i h1 h2 h3; simp at h1
  | cons m ms ih =>
    intro bits fbcs i h1 h2 h3
    cases bits with
    | nil => simp at h2
    | cons bc bcs =>
      cases fbcs with
      | nil => simp at h3
      | cons fc fcs =>
        cases i with
        | zero => simp [meanUpdate]
        | succ j =>
          have hrec := ih bcs fcs j (by simpa using h1) (by simpa using h2)
            (by simpa using h3)
          simpa [meanUpdate] using hrec

theorem meanUpdate_mem : ∀ (means bits : List Int) (fbcs : List Nat) (x : Int),
    x ∈ meanUpdate bits fbcs means →
    ∃ m bc fc, m ∈ means ∧ bc ∈ bits ∧ fc ∈ fbcs ∧
      x = if 0 < fc then
        WebRtc_MeanEstimatorFix (bc * 512) (13 - (3 * fc) >>> 4) m else m := by
  intro means bits fbcs x hx
  simp only [meanUpdate, List.mem_map] at hx
  obtain ⟨q, hq, hqx⟩ := hx
  obtain ⟨m, p, rfl⟩ : ∃ m p, q = (m, p) := ⟨q.1, q.2, rfl⟩
  obtain ⟨bc, fc, rfl⟩ : ∃ bc fc, p = (bc, fc) := ⟨p.1, p.2, rfl⟩
  have h1 := List.of_mem_zip hq
  have h2 := List.of_mem_zip h1.2
  exact ⟨m, bc, fc, h1.1, h2.1, h2.2, hqx.symm⟩

theorem BitCount_le_32 (u : Nat) (hu : u < 4294967296) : BitCount u ≤ 32 := by
  rw [BitCount_eq_popcount u hu]
  exact popcount_le 32 u (by norm_num; omega)

theorem BitCountComparison_length (v : Nat) (m : List Nat) :
    (BitCountComparison v m).length = m.length := by
  simp [BitCountComparison]

theorem BitCountComparison_getD (v : Nat) (m : List Nat) (i : Nat) (h : i < m.length) :
    (BitCountComparison v m).getD i 0 = (BitCount (v ^^^ m.getD i 0) : Int) := by
  simp only [BitCountComparison]
  rw [List.getD_eq_getElem _ 0 (by simpa using h), List.getD_eq_getElem _ 0 h]
  simp

theorem BitCountComparison_mem (v : Nat) (m : List Nat) (x : Int)
    (hx : x ∈ BitCountComparison v m) :
    ∃ row ∈ m, x = (BitCount (v ^^^ row) : Int) := by
  simp only [BitCountComparison, List.mem_map] at hx
  obtain ⟨row, hrow, hxe⟩ := hx
  exact ⟨row, hrow, hxe.symm⟩

-- ===== per-call facts about WebRtc_ProcessBinarySpectrum =====

theorem process_history_size (st : BinaryDelayEstimator) (f n : Nat) :
    ((WebRtc_ProcessBinarySpectrum st f n).1).history_size = st.history_size := rfl

theorem process_near_history_size (st : BinaryDelayEstimator) (f n : Nat) :
    ((WebRtc_ProcessBinarySpectrum st f n).1).near_history_size
      = st.near_history_size := rfl

theorem process_far (st : BinaryDelayEstimator) (f n : Nat) :
    ((WebRtc_ProcessBinarySpectrum st f n).1).binary_far_history
      = shiftIn f st.binary_far_history := rfl

theorem process_fbc (st : BinaryDelayEstimator) (f n : Nat) :
    ((WebRtc_ProcessBinarySpectrum st f n).1).far_bit_counts
      = shiftIn (BitCount f) st.far_bit_counts := rfl

theorem process_near (st : BinaryDelayEstimator) (f n : Nat) :
    ((WebRtc_ProcessBinarySpectrum st f n).1).binary_near_history
      = (nearStage st n).1 := rfl

theorem process_bits (st : BinaryDelayEstimator) (f n : Nat) :
    ((WebRtc_ProcessBinarySpectrum st f n).1).bit_counts
      = BitCountComparison (nearStage st n).2 (shiftIn f st.binary_far_history) := rfl

theorem process_mean (st : BinaryDelayEstimator) (f n : Nat) :
    ((WebRtc_ProcessBinarySpectrum st f n).1).mean_bit_counts
      = meanUpdate
          (BitCountComparison (nearStage st n).2 (shiftIn f st.binary_far_history))
          (shiftIn (BitCount f) st.far_bit_counts)
          st.mean_bit_counts := rfl

theorem process_minp (st : BinaryDelayEstimator) (f n : Nat) :
    ((WebRtc_ProcessBinarySpectrum st f n).1).minimum_probability
      = minProbUpdate st.minimum_probability
          (candidateScan ((WebRtc_ProcessBinarySpectrum st f n).1).mean_bit_counts).2.1
          (candidateScan ((WebRtc_ProcessBinarySpectrum st f n).1).mean_bit_counts).2.2
      := rfl

theorem process_decision (st : BinaryDelayEstimator) (f n : Nat) :
    (((WebRtc_ProcessBinarySpectrum st f n).1).last_delay,
     ((WebRtc_ProcessBinarySpectrum st f n).1).last_delay_probability)
      = decisionUpdate ((WebRtc_ProcessBinarySpectrum st f n).1).minimum_probability
          st.last_delay st.last_delay_probability
          (candidateScan ((WebRtc_ProcessBinarySpectrum st f n).1).mean_bit_counts).1
          (candidateScan ((WebRtc_ProcessBinarySpectrum st f n).1).mean_bit_counts).2.1
          (candidateScan ((WebRtc_ProcessBinarySpectrum st f n).1).mean_bit_counts).2.2
      := rfl

theorem process_ret (st : BinaryDelayEstimator) (f n : Nat) :
    (WebRtc_ProcessBinarySpectrum st f n).2
      = ((WebRtc_ProcessBinarySpectrum st f n).1).last_delay := rfl

theorem shifts_ge_one (c : Nat) (hc : c ≤ 32) : 1 ≤ 13 - (3 * c) >>> 4 := by
  rw [Nat.shiftRight_eq_div_pow]
  norm_num
  omega

theorem nearStage_length (st : BinaryDelayEstimator) (n : Nat)
    (hlen : st.binary_near_history.length = st.near_history_size)
    (h1 : 1 ≤ st.near_history_size) :
    (nearStage st n).1.length = st.near_history_size := by
  unfold nearStage
  split_ifs with h
  · simp only
    rw [shiftIn_length _ _ (by omega)]
    exact hlen
  · exact hlen

theorem nearStage_words (st : BinaryDelayEstimator) (n : Nat)
    (hw : ∀ w ∈ st.binary_near_history, w < 4294967296) (hn : n < 4294967296) :
    (∀ w ∈ (nearStage st n).1, w < 4294967296) ∧ (nearStage st n).2 < 4294967296 := by
  unfold nearStage
  split_ifs with h
  · simp only
    constructor
    · intro w hmem
      rcases mem_shiftIn _ _ _ hmem with rfl | hmem2
      · exact hn
      · exact hw w hmem2
    · rcases getD_mem_or_default (shiftIn n st.binary_near_history)
          (st.near_history_size - 1) 0 with hmem | hdef
      · rcases mem_shiftIn _ _ _ hmem with heq | hmem2
        · rw [heq]; exact hn
        · exact hw _ hmem2
      · rw [hdef]; norm_num
  · exact ⟨hw, hn⟩

theorem WF_process (st : BinaryDelayEstimator) (hwf : WF st) (f n : Nat)
    (hf : f < 4294967296) (hn : n < 4294967296) :
    WF (WebRtc_ProcessBinarySpectrum st f n).1 := by
  have hfar_len : (shiftIn f st.binary_far_history).length = st.history_size := by
    rw [shiftIn_length _ _ (by rw [hwf.far_len]; have := hwf.hs2; omega)]
    exact hwf.far_len
  have hfbc_len : (shiftIn (BitCount f) st.far_bit_counts).length = st.history_size := by
    rw [shiftIn_length _ _ (by rw [hwf.fbc_len]; have := hwf.hs2; omega)]
    exact hwf.fbc_len
  have hnear := nearStage_words st n hwf.near_words hn
  have hfar_words : ∀ w ∈ shiftIn f st.binary_far_history, w < 4294967296 := by
    intro w hmem
    rcases mem_shiftIn _ _ _ hmem with rfl | hmem2
    · exact hf
    · exact hwf.far_words w hmem2
  have hfbc_le : ∀ c ∈ shiftIn (BitCount f) st.far_bit_counts, c ≤ 32 := by
    intro c hmem
    rcases mem_shiftIn _ _ _ hmem with rfl | hmem2
    · exact BitCount_le_32 f hf
    · exact hwf.fbc_le c hmem2
  have hbits : ∀ x ∈ BitCountComparison (nearStage st n).2
      (shiftIn f st.binary_far_history), 0 ≤ x ∧ x ≤ 32 := by
    intro x hx
    obtain ⟨row, hrow, rfl⟩ := BitCountComparison_mem _ _ _ hx
    have hxor : (nearStage st n).2 ^^^ row < 4294967296 := by
      have h32 : (4294967296 : Nat) = 2 ^ 32 := by norm_num
      rw [h32]
      exact Nat.xor_lt_two_pow (by rw [← h32]; exact hnear.2)
        (by rw [← h32]; exact hfar_words row hrow)
    have := BitCount_le_32 _ hxor
    constructor
    · positivity
    · exact_mod_cast this
  have hmean : ∀ x ∈ meanUpdate
      (BitCountComparison (nearStage st n).2 (shiftIn f st.binary_far_history))
      (shiftIn (BitCount f) st.far_bit_counts) st.mean_bit_counts,
      0 ≤ x ∧ x < 16384 := by
    intro x hx
    obtain ⟨m, bc, fc, hm, hbc, hfc, rfl⟩ := meanUpdate_mem _ _ _ _ hx
    split_ifs with hfc0
    · have hb := hbits bc hbc
      have hfcle := hfbc_le fc hfc
      exact meanFix_bounds (bc * 512) m _ (hwf.mean_lb m hm) (hwf.mean_ub m hm)
        (by omega) (by omega) (shifts_ge_one fc hfcle)
    · exact ⟨hwf.mean_lb m hm, hwf.mean_ub m hm⟩
  have hmean_len : (meanUpdate
      (BitCountComparison (nearStage st n).2 (shiftIn f st.binary_far_history))
      (shiftIn (BitCount f) st.far_bit_counts) st.mean_bit_counts).length
      = st.history_size := by
    rw [meanUpdate_length, BitCountComparison_length, hfar_len, hfbc_len, hwf.mean_len]
    omega
  have hscan := candidateScan_spec
    ((WebRtc_ProcessBinarySpectrum st f n).1).mean_bit_counts
    (by rw [process_mean, hmean_len]; have := hwf.hs2; omega)
    (by rw [process_mean]; intro m hm; exact (hmean m hm).2)
  refine ⟨?_, ?_, ?_, ?_, ?_, ?_, ?_, ?_, ?_, ?_, ?_, ?_, ?_, ?_, ?_⟩
  · rw [process_history_size]; exact hwf.hs2
  · rw [process_near_history_size]; exact hwf.nhs1
  · rw [process_far, process_history_size]; exact hfar_len
  · rw [process_fbc, process_history_size]; exact hfbc_len
  · rw [process_near, process_near_history_size]
    exact nearStage_length st n hwf.near_len hwf.nhs1
  · rw [process_bits, process_history_size, BitCountComparison_length]; exact hfar_len
  · rw [process_mean, process_history_size]; exact hmean_len
  · rw [process_mean]; intro m hm; exact (hmean m hm).1
  · rw [process_mean]; intro m hm; exact (hmean m hm).2
  · rw [process_far]; exact hfar_words
  · rw [process_near]; exact hnear.1
  · rw [process_fbc]; exact hfbc_le
  · rw [process_minp]
    exact minProbUpdate_lb _ _ _ hwf.minp_lb
  · rw [process_minp]
    calc minProbUpdate st.minimum_probability _ _ ≤ st.minimum_probability :=
        minProbUpdate_le _ _ _
      _ ≤ 16384 := hwf.minp_ub
  · have hdec := process_decision st f n
    have hcase := decisionUpdate_cases
      ((WebRtc_ProcessBinarySpectrum st f n).1).minimum_probability
      st.last_delay st.last_delay_probability
      (candidateScan ((WebRtc_ProcessBinarySpectrum st f n).1).mean_bit_counts).1
      (candidateScan ((WebRtc_ProcessBinarySpectrum st f n).1).mean_bit_counts).2.1
      (candidateScan ((WebRtc_ProcessBinarySpectrum st f n).1).mean_bit_counts).2.2
    have hld : ((WebRtc_ProcessBinarySpectrum st f n).1).last_delay
        = (decisionUpdate ((WebRtc_ProcessBinarySpectrum st f n).1).minimum_probability
            st.last_delay st.last_delay_probability
            (candidateScan ((WebRtc_ProcessBinarySpectrum st f n).1).mean_bit_counts).1
            (candidateScan ((WebRtc_ProcessBinarySpectrum st f n).1).mean_bit_counts).2.1
            (candidateScan ((WebRtc_ProcessBinarySpectrum st f n).1).mean_bit_counts).2.2).1
        := congrArg Prod.fst hdec
    rw [hld]
    rcases hcase with hc | hc
    · rw [hc, process_history_size]
      exact hwf.ld_ok
    · rw [hc, process_history_size]
      right
      have h1 := hscan.1
      have h2 := hscan.2.1
      constructor
      · exact h1
      · calc (candidateScan ((WebRtc_ProcessBinarySpectrum st f n).1).mean_bit_counts).1
            < (((WebRtc_ProcessBinarySpectrum st f n).1).mean_bit_counts.length : Int) :=
              h2
          _ = (st.history_size : Int) := by
              rw [process_mean, hmean_len]

-- ===== create / init =====

theorem create_isSome_iff (md la : Int) :
    (WebRtc_CreateBinaryDelayEstimator md la).isSome
      ↔ (0 ≤ md ∧ 0 ≤ la ∧ 1 < md + la) := by
  unfold WebRtc_CreateBinaryDelayEstimator
  split_ifs with h
  · simpa using h
  · simpa using h

theorem create_elim (md la : Int) (st : BinaryDelayEstimator)
    (hc : WebRtc_CreateBinaryDelayEstimator md la = some st) :
    0 ≤ md ∧ 0 ≤ la ∧ 1 < md + la ∧
    st.history_size = (md + la).toNat ∧ st.near_history_size = (la + 1).toNat := by
  unfold WebRtc_CreateBinaryDelayEstimator at hc
  split_ifs at hc with h
  · obtain ⟨h1, h2, h3⟩ := h
    have hst := Option.some_inj.mp hc
    subst hst
    exact ⟨h1, h2, h3, rfl, rfl⟩

theorem init_fields (st : BinaryDelayEstimator) :
    (WebRtc_InitBinaryDelayEstimator st).history_size = st.history_size ∧
    (WebRtc_InitBinaryDelayEstimator st).near_history_size = st.near_history_size ∧
    (WebRtc_InitBinaryDelayEstimator st).mean_bit_counts
      = List.replicate st.history_size 10240 ∧
    (WebRtc_InitBinaryDelayEstimator st).minimum_probability = 16384 ∧
    (WebRtc_InitBinaryDelayEstimator st).last_delay_probability = 16384 ∧
    (WebRtc_InitBinaryDelayEstimator st).last_delay = -2 ∧
    (WebRtc_InitBinaryDelayEstimator st).binary_near_history
      = List.replicate st.near_history_size 0 := by
  refine ⟨rfl, rfl, rfl, rfl, rfl, rfl, rfl⟩

theorem WF_init (md la : Int) (st : BinaryDelayEstimator)
    (hc : WebRtc_CreateBinaryDelayEstimator md la = some st) :
    WF (WebRtc_InitBinaryDelayEstimator st) := by
  obtain ⟨h1, h2, h3, h4, h5⟩ := create_elim md la st hc
  have hhs : 2 ≤ st.history_size := by
    rw [h4]
    omega
  have hnhs : 1 ≤ st.near_history_size := by
    rw [h5]
    omega
  refine ⟨hhs, hnhs, by simp [WebRtc_InitBinaryDelayEstimator],
    by simp [WebRtc_InitBinaryDelayEstimator],
    by simp [WebRtc_InitBinaryDelayEstimator],
    by simp [WebRtc_InitBinaryDelayEstimator],
    by simp [WebRtc_InitBinaryDelayEstimator],
    ?_, ?_, ?_, ?_, ?_, by norm_num [WebRtc_InitBinaryDelayEstimator],
    by norm_num [WebRtc_InitBinaryDelayEstimator],
    Or.inl rfl⟩
  · intro m hm
    simp only [WebRtc_InitBinaryDelayEstimator, List.mem_replicate] at hm
    omega
  · intro m hm
    simp only [WebRtc_InitBinaryDelayEstimator, List.mem_replicate] at hm
    omega
  · intro w hw
    simp only [WebRtc_InitBinaryDelayEstimator, List.mem_replicate] at hw
    omega
  · intro w hw
    simp only [WebRtc_InitBinaryDelayEstimator, List.mem_replicate] at hw
    omega
  · intro c hcm
    simp only [WebRtc_InitBinaryDelayEstimator, List.mem_replicate] at hcm
    omega

theorem WF_run (ws : List (Nat × Nat)) : ∀ (st : BinaryDelayEstimator), WF st →
    (∀ p ∈ ws, p.1 < 4294967296 ∧ p.2 < 4294967296) → WF (runProcess st ws) := by
  induction ws with
  | nil => intro st hwf _; exact hwf
  | cons p ps ih =>
    intro st hwf hv
    have hp := hv p (by simp)
    exact ih _ (WF_process st hwf p.1 p.2 hp.1 hp.2) (fun q hq => hv q (by simp [hq]))

theorem process_minp_le (st : BinaryDelayEstimator) (f n : Nat) :
    ((WebRtc_ProcessBinarySpectrum st f n).1).minimum_probability
      ≤ st.minimum_probability := by
  rw [process_minp]
  exact minProbUpdate_le _ _ _

-- ===== near-history lookahead characterization =====

theorem histAfter_length (L : Nat) (nears : List Nat) :
    (histAfter L nears).length = L + 1 := by
  simp [histAfter]

theorem shiftIn_histAfter (L : Nat) (n : Nat) (nears : List Nat) :
    shiftIn n (histAfter L nears) = histAfter L (nears ++ [n]) := by
  unfold shiftIn histAfter
  have h1 : ((nears.reverse ++ List.replicate (L + 1) 0).take (L + 1)).dropLast
      = (nears.reverse ++ List.replicate (L + 1) 0).take L := by
    rw [List.dropLast_eq_take, List.length_take, List.take_take]
    have hlen : L + 1 ≤ (nears.reverse ++ List.replicate (L + 1) 0).length := by
      simp
    have : min (L + 1) (nears.reverse ++ List.replicate (L + 1) 0).length = L + 1 := by
      omega
    rw [this]
    have : L + 1 - 1 = L := by omega
    rw [this]
    have : min L (L + 1) = L := by omega
    rw [this]
  rw [h1]
  have h2 : (nears ++ [n]).reverse ++ List.replicate (L + 1) 0
      = n :: (nears.reverse ++ List.replicate (L + 1) 0) := by
    simp
  rw [h2, List.take_succ_cons]

theorem runProcess_near_history (ws : List (Nat × Nat)) :
    ∀ (st : BinaryDelayEstimator) (L : Nat) (nears : List Nat),
    st.near_history_size = L + 1 → 1 ≤ L →
    st.binary_near_history = histAfter L nears →
    (runProcess st ws).binary_near_history = histAfter L (nears ++ ws.map Prod.snd) := by
  induction ws with
  | nil => intro st L nears _ _ hh; simpa using hh
  | cons p ps ih =>
    intro st L nears hsize hL hh
    show (runProcess (WebRtc_ProcessBinarySpectrum st p.1 p.2).1 ps).binary_near_history = _
    have hnew : ((WebRtc_ProcessBinarySpectrum st p.1 p.2).1).binary_near_history
        = histAfter L (nears ++ [p.2]) := by
      rw [process_near]
      unfold nearStage
      rw [if_pos (by omega)]
      simp only
      rw [hh, shiftIn_histAfter]
    have := ih (WebRtc_ProcessBinarySpectrum st p.1 p.2).1 L (nears ++ [p.2])
      (by rw [process_near_history_size]; exact hsize) hL hnew
    rw [this]
    simp

theorem histAfter_getD (L : Nat) (ys : List Nat) :
    (histAfter L ys).getD L 0
      = if L < ys.length then ys.getD (ys.length - 1 - L) 0 else 0 := by
  unfold histAfter
  have hlen : L < ((ys.reverse ++ List.replicate (L + 1) 0).take (L + 1)).length := by
    simp
  rw [List.getD_eq_getElem _ 0 hlen, List.getElem_take]
  split_ifs with h
  · have hrl : L < ys.reverse.length := by simpa using h
    rw [List.getElem_append_left hrl, List.getElem_reverse]
    rw [List.getD_eq_getElem _ 0 (by omega)]
  · have hrl : ys.reverse.length ≤ L := by simpa using h
    rw [List.getElem_append_right hrl]
    simp

theorem runProcess_sizes (ws : List (Nat × Nat)) : ∀ (st : BinaryDelayEstimator),
    (runProcess st ws).history_size = st.history_size ∧
    (runProcess st ws).near_history_size = st.near_history_size := by
  induction ws with
  | nil => intro st; exact ⟨rfl, rfl⟩
  | cons p ps ih =>
    intro st
    have := ih (WebRtc_ProcessBinarySpectrum st p.1 p.2).1
    exact ⟨this.1, this.2⟩

/-- C9: create succeeds exactly for max_delay >= 0, lookahead >= 0,
max_delay + lookahead > 1; the boundary cases; and the sizes of the state. -/
theorem claim_C9_create (md la : Int) (st : BinaryDelayEstimator)
    (hc : WebRtc_CreateBinaryDelayEstimator md la = some st) :
    (0 ≤ md ∧ 0 ≤ la ∧ 1 < md + la) ∧
    (st.history_size : Int) = md + la ∧
    (st.near_history_size : Int) = la + 1 ∧
    (∀ md2 la2 : Int, (WebRtc_CreateBinaryDelayEstimator md2 la2).isSome
        ↔ (0 ≤ md2 ∧ 0 ≤ la2 ∧ 1 < md2 + la2)) ∧
    WebRtc_CreateBinaryDelayEstimator 0 0 = none ∧
    WebRtc_CreateBinaryDelayEstimator 1 0 = none ∧
    (WebRtc_CreateBinaryDelayEstimator 1 1).isSome := by
  obtain ⟨h1, h2, h3, h4, h5⟩ := create_elim md la st hc
  refine ⟨⟨h1, h2, h3⟩, ?_, ?_, create_isSome_iff, by decide, by decide, by decide⟩
  · rw [h4]
    omega
  · rw [h5]
    omega

/-- C6: the adaptive floor starts at 16384, never increases on any call, and
stays within [8704, 16384] after any run. -/
theorem claim_C6_floor (md la : Int) (st : BinaryDelayEstimator)
    (hc : WebRtc_CreateBinaryDelayEstimator md la = some st)
    (ws : List (Nat × Nat)) (hws : ∀ p ∈ ws, p.1 < 4294967296 ∧ p.2 < 4294967296)
    (f n : Nat) :
    (WebRtc_InitBinaryDelayEstimator st).minimum_probability = 16384 ∧
    8704 ≤ (runProcess (WebRtc_InitBinaryDelayEstimator st) ws).minimum_probability ∧
    (runProcess (WebRtc_InitBinaryDelayEstimator st) ws).minimum_probability ≤ 16384 ∧
    ((WebRtc_ProcessBinarySpectrum
        (runProcess (WebRtc_InitBinaryDelayEstimator st) ws) f n).1).minimum_probability
      ≤ (runProcess (WebRtc_InitBinaryDelayEstimator st) ws).minimum_probability := by
  have hwf := WF_run ws _ (WF_init md la st hc) hws
  exact ⟨rfl, hwf.minp_lb, hwf.minp_ub, process_minp_le _ f n⟩

/-- C10: init sets every smoothed mean to 10240 and every reachable state keeps
all means inside [0, 16384). -/
theorem claim_C10_mean_range (md la : Int) (st : BinaryDelayEstimator)
    (hc : WebRtc_CreateBinaryDelayEstimator md la = some st)
    (ws : List (Nat × Nat)) (hws : ∀ p ∈ ws, p.1 < 4294967296 ∧ p.2 < 4294967296) :
    (WebRtc_InitBinaryDelayEstimator st).mean_bit_counts
      = List.replicate st.history_size 10240 ∧
    ∀ m ∈ (runProcess (WebRtc_InitBinaryDelayEstimator st) ws).mean_bit_counts,
      0 ≤ m ∧ m < 16384 := by
  have hwf := WF_run ws _ (WF_init md la st hc) hws
  exact ⟨rfl, fun m hm => ⟨hwf.mean_lb m hm, hwf.mean_ub m hm⟩⟩

/-- C8: the candidate scan computes the running minimum against the initial
bound 16384 (first index wins ties), and the running maximum against 0. -/
theorem claim_C8_scan (st : BinaryDelayEstimator) (f n : Nat) (ms : List Int)
    (cd b w : Int)
    (hms : ms = ((WebRtc_ProcessBinarySpectrum st f n).1).mean_bit_counts)
    (hscan : candidateScan ms = (cd, b, w)) :
    b = ms.foldl min 16384 ∧ w = ms.foldl max 0 ∧
    b ≤ 16384 ∧ (b = 16384 ∨ b ∈ ms) ∧ (∀ x ∈ ms, b ≤ x) ∧
    0 ≤ w ∧ (w = 0 ∨ w ∈ ms) ∧ (∀ x ∈ ms, x ≤ w) ∧
    ((∀ x ∈ ms, 16384 ≤ x) → cd = -1) ∧
    ((∃ x ∈ ms, x < 16384) → ∃ i, i < ms.length ∧ cd = (i : Int) ∧
      ms.getD i 0 = b ∧ ∀ j, j < i → b < ms.getD j 0) := by
  clear hms
  have hbw := scan_best_worst ms 0 (-1) 16384 0
  have harg := scan_argmin ms 0 (-1) 16384 0
  unfold candidateScan at hscan
  rw [List.enum_eq_enumFrom] at hscan
  rw [hscan] at hbw harg
  simp only at hbw harg
  obtain ⟨hb, hw⟩ := hbw
  refine ⟨hb, hw, ?_, ?_, ?_, ?_, ?_, ?_, ?_, ?_⟩
  · rw [hb]
    exact foldl_min_le_init ms 16384
  · rw [hb]
    exact foldl_min_mem_or ms 16384
  · intro x hx
    rw [hb]
    exact foldl_min_le_mem ms 16384 x hx
  · rw [hw]
    exact foldl_max_init_le ms 0
  · rw [hw]
    exact foldl_max_mem_or ms 0
  · intro x hx
    rw [hw]
    exact foldl_max_mem_le ms 0 x hx
  · intro hall
    exact harg.1 hall
  · intro hex
    obtain ⟨i, hi, h1, h2, h3⟩ := harg.2 hex
    refine ⟨i, hi, by simpa using h1, h2, h3⟩

/-- C1: after init the accessor returns -2; every later process call returns
either -2 or a delay in [0, history_size), never -1, and the candidate scan
always finds an index with mean strictly below 16384. -/
theorem claim_C1_range (md la : Int) (st : BinaryDelayEstimator)
    (hc : WebRtc_CreateBinaryDelayEstimator md la = some st)
    (ws : List (Nat × Nat)) (hws : ∀ p ∈ ws, p.1 < 4294967296 ∧ p.2 < 4294967296)
    (f n : Nat) (hf : f < 4294967296) (hn : n < 4294967296) :
    WebRtc_binary_last_delay (WebRtc_InitBinaryDelayEstimator st) = -2 ∧
    ((WebRtc_ProcessBinarySpectrum
        (runProcess (WebRtc_InitBinaryDelayEstimator st) ws) f n).2 = -2 ∨
      (0 ≤ (WebRtc_ProcessBinarySpectrum
          (runProcess (WebRtc_InitBinaryDelayEstimator st) ws) f n).2 ∧
       (WebRtc_ProcessBinarySpectrum
          (runProcess (WebRtc_InitBinaryDelayEstimator st) ws) f n).2
         < (st.history_size : Int))) ∧
    (WebRtc_ProcessBinarySpectrum
        (runProcess (WebRtc_InitBinaryDelayEstimator st) ws) f n).2 ≠ -1 ∧
    (WebRtc_ProcessBinarySpectrum
        (runProcess (WebRtc_InitBinaryDelayEstimator st) ws) f n).2
      = WebRtc_binary_last_delay (WebRtc_ProcessBinarySpectrum
          (runProcess (WebRtc_InitBinaryDelayEstimator st) ws) f n).1 ∧
    0 ≤ (candidateScan ((WebRtc_ProcessBinarySpectrum
        (runProcess (WebRtc_InitBinaryDelayEstimator st) ws) f n).1).mean_bit_counts).1 ∧
    (candidateScan ((WebRtc_ProcessBinarySpectrum
        (runProcess (WebRtc_InitBinaryDelayEstimator st) ws) f n).1).mean_bit_counts).1
      < (st.history_size : Int) ∧
    (candidateScan ((WebRtc_ProcessBinarySpectrum
        (runProcess (WebRtc_InitBinaryDelayEstimator st) ws) f n).1).mean_bit_counts).2.1
      < 16384 := by
  have hwf1 := WF_run ws _ (WF_init md la st hc) hws
  have hwf2 := WF_process _ hwf1 f n hf hn
  have hs_run := (runProcess_sizes ws (WebRtc_InitBinaryDelayEstimator st)).1
  have hs_init : (WebRtc_InitBinaryDelayEstimator st).history_size = st.history_size := rfl
  have hs2 : ((WebRtc_ProcessBinarySpectrum
      (runProcess (WebRtc_InitBinaryDelayEstimator st) ws) f n).1).history_size
      = st.history_size := by
    rw [process_history_size, hs_run, hs_init]
  have hscan := candidateScan_spec ((WebRtc_ProcessBinarySpectrum
      (runProcess (WebRtc_InitBinaryDelayEstimator st) ws) f n).1).mean_bit_counts
    (by rw [hwf2.mean_len, hs2]; have := hwf2.hs2; rw [hs2] at this; omega)
    hwf2.mean_ub
  have hmlen : (((WebRtc_ProcessBinarySpectrum
      (runProcess (WebRtc_InitBinaryDelayEstimator st) ws) f n).1).mean_bit_counts.length
      : Int) = (st.history_size : Int) := by
    rw [hwf2.mean_len, hs2]
  have hld := hwf2.ld_ok
  rw [hs2] at hld
  rw [process_ret]
  refine ⟨rfl, hld, ?_, rfl, hscan.1, ?_, hscan.2.2⟩
  · rcases hld with h | h
    · rw [h]; norm_num
    · have := h.1
      omega
  · calc (candidateScan ((WebRtc_ProcessBinarySpectrum
        (runProcess (WebRtc_InitBinaryDelayEstimator st) ws) f n).1).mean_bit_counts).1
        < (((WebRtc_ProcessBinarySpectrum
            (runProcess (WebRtc_InitBinaryDelayEstimator st) ws) f n).1).mean_bit_counts.length : Int) :=
          hscan.2.1
      _ = (st.history_size : Int) := hmlen

/-- C2: the decision step increments last_delay_probability by one, then, when
the worst-best gap exceeds 1024, updates last_delay under either comparison and
re-anchors last_delay_probability only under the second. -/
theorem claim_C2_decision (st : BinaryDelayEstimator) (f n : Nat)
    (cd b w mp ld ldp : Int)
    (hscan : candidateScan ((WebRtc_ProcessBinarySpectrum st f n).1).mean_bit_counts
      = (cd, b, w))
    (hmp : ((WebRtc_ProcessBinarySpectrum st f n).1).minimum_probability = mp)
    (hld : ((WebRtc_ProcessBinarySpectrum st f n).1).last_delay = ld)
    (hldp : ((WebRtc_ProcessBinarySpectrum st f n).1).last_delay_probability = ldp) :
    (b + 1024 < w →
      ((b < mp ∨ b < st.last_delay_probability + 1) → ld = cd) ∧
      ((¬ b < mp ∧ ¬ b < st.last_delay_probability + 1) → ld = st.last_delay) ∧
      (b < st.last_delay_probability + 1 → ldp = b) ∧
      (¬ b < st.last_delay_probability + 1 → ldp = st.last_delay_probability + 1)) ∧
    (¬ b + 1024 < w → ld = st.last_delay ∧ ldp = st.last_delay_probability + 1) := by
  have hdec := process_decision st f n
  rw [hscan, hmp, hld, hldp] at hdec
  simp only at hdec
  have h1 : ld = (decisionUpdate mp st.last_delay st.last_delay_probability cd b w).1 :=
    congrArg Prod.fst hdec
  have h2 : ldp = (decisionUpdate mp st.last_delay st.last_delay_probability cd b w).2 :=
    congrArg Prod.snd hdec
  unfold decisionUpdate at h1 h2
  constructor
  · intro hgap
    rw [if_pos hgap] at h1 h2
    refine ⟨?_, ?_, ?_, ?_⟩
    · intro hor
      rcases hor with hcase | hcase
      · by_cases hc2 : b < st.last_delay_probability + 1
        · rw [if_pos hc2] at h1
          simpa using h1
        · rw [if_neg hc2] at h1
          simp only at h1
          rw [h1, if_pos hcase]
      · rw [if_pos hcase] at h1
        simpa using h1
    · intro hand
      rw [if_neg hand.2] at h1
      simp only at h1
      rw [h1, if_neg hand.1]
    · intro hc2
      rw [if_pos hc2] at h2
      simpa using h2
    · intro hc2
      rw [if_neg hc2] at h2
      simpa using h2
  · intro hgap
    rw [if_neg hgap] at h1 h2
    exact ⟨h1, h2⟩

/-- C5: every slot with positive far bit count is smoothed through
WebRtc_MeanEstimatorFix with the piecewise-linear shift. -/
theorem claim_C5_smoothing (st : BinaryDelayEstimator) (f n : Nat) (i : Nat)
    (hfar : st.binary_far_history.length = st.history_size)
    (hfbc : st.far_bit_counts.length = st.history_size)
    (hmean : st.mean_bit_counts.length = st.history_size)
    (hhs : 0 < st.history_size) (hi : i < st.history_size)
    (hpos : 0 < ((WebRtc_ProcessBinarySpectrum st f n).1).far_bit_counts.getD i 0) :
    ((WebRtc_ProcessBinarySpectrum st f n).1).mean_bit_counts.getD i 0
      = WebRtc_MeanEstimatorFix
          (((WebRtc_ProcessBinarySpectrum st f n).1).bit_counts.getD i 0 * 512)
          (13 - (3 * ((WebRtc_ProcessBinarySpectrum st f n).1).far_bit_counts.getD i 0)
            >>> 4)
          (st.mean_bit_counts.getD i 0) := by
  rw [process_fbc] at hpos
  rw [process_mean, process_bits, process_fbc]
  rw [meanUpdate_getD st.mean_bit_counts _ _ i (by omega)
    (by rw [BitCountComparison_length, shiftIn_length _ _ (by omega)]; omega)
    (by rw [shiftIn_length _ _ (by omega)]; omega)]
  rw [if_pos hpos]

/-- C7: slots whose far bit count is zero keep their smoothed mean unchanged. -/
theorem claim_C7_zero_skip (st : BinaryDelayEstimator) (f n : Nat) (i : Nat)
    (hfar : st.binary_far_history.length = st.history_size)
    (hfbc : st.far_bit_counts.length = st.history_size)
    (hmean : st.mean_bit_counts.length = st.history_size)
    (hhs : 0 < st.history_size) (hi : i < st.history_size)
    (hzero : ((WebRtc_ProcessBinarySpectrum st f n).1).far_bit_counts.getD i 0 = 0) :
    ((WebRtc_ProcessBinarySpectrum st f n).1).mean_bit_counts.getD i 0
      = st.mean_bit_counts.getD i 0 := by
  rw [process_fbc] at hzero
  rw [process_mean]
  rw [meanUpdate_getD st.mean_bit_counts _ _ i (by omega)
    (by rw [BitCountComparison_length, shiftIn_length _ _ (by omega)]; omega)
    (by rw [shiftIn_length _ _ (by omega)]; omega)]
  rw [if_neg (by omega)]

/-- C4: BitCount is the exact population count (at most 32), and
BitCountComparison stores per row the popcount of the XOR. -/
theorem claim_C4_bitcount (u : Nat) (hu : u < 4294967296) (v : Nat)
    (hv : v < 4294967296) (m : List Nat) (hm : ∀ row ∈ m, row < 4294967296) :
    BitCount u = popcount u ∧ BitCount u ≤ 32 ∧
    (BitCountComparison v m).length = m.length ∧
    (∀ i, i < m.length → (BitCountComparison v m).getD i 0
        = (popcount (v ^^^ m.getD i 0) : Int)) := by
  refine ⟨BitCount_eq_popcount u hu, BitCount_le_32 u hu,
    BitCountComparison_length v m, ?_⟩
  intro i hi
  rw [BitCountComparison_getD v m i hi]
  have hrow : m.getD i 0 < 4294967296 := by
    rcases getD_mem_or_default m i 0 with hmem | hdef
    · exact hm _ hmem
    · rw [hdef]; norm_num
  have hxor : v ^^^ m.getD i 0 < 4294967296 := by
    have h32 : (4294967296 : Nat) = 2 ^ 32 := by norm_num
    rw [h32]
    exact Nat.xor_lt_two_pow (by omega) (by omega)
  rw [BitCount_eq_popcount _ hxor]

/-- C3: the near-history mechanism realizes exactly lookahead frames of delay:
the compared word is the near input from lookahead calls earlier (zero word if
too few calls), and with lookahead 0 it is the current input itself. -/
theorem claim_C3_lookahead (md la : Int) (st : BinaryDelayEstimator)
    (hc : WebRtc_CreateBinaryDelayEstimator md la = some st)
    (ws : List (Nat × Nat)) (n : Nat) :
    (la = 0 → (nearStage (runProcess (WebRtc_InitBinaryDelayEstimator st) ws) n).2 = n) ∧
    (1 ≤ la →
      (nearStage (runProcess (WebRtc_InitBinaryDelayEstimator st) ws) n).1
        = shiftIn n (runProcess (WebRtc_InitBinaryDelayEstimator st) ws).binary_near_history ∧
      (nearStage (runProcess (WebRtc_InitBinaryDelayEstimator st) ws) n).2
        = (shiftIn n (runProcess
              (WebRtc_InitBinaryDelayEstimator st) ws).binary_near_history).getD
            ((runProcess (WebRtc_InitBinaryDelayEstimator st) ws).near_history_size - 1) 0 ∧
      (nearStage (runProcess (WebRtc_InitBinaryDelayEstimator st) ws) n).2
        = (if la.toNat ≤ ws.length
           then (ws.map Prod.snd).getD (ws.length - la.toNat) 0 else 0)) := by
  obtain ⟨h1, h2, h3, h4, h5⟩ := create_elim md la st hc
  have hnhs_run : (runProcess (WebRtc_InitBinaryDelayEstimator st) ws).near_history_size
      = st.near_history_size :=
    (runProcess_sizes ws (WebRtc_InitBinaryDelayEstimator st)).2
  constructor
  · intro hla0
    have hnhs1 : (runProcess (WebRtc_InitBinaryDelayEstimator st) ws).near_history_size
        = 1 := by
      rw [hnhs_run, h5, hla0]
      decide
    unfold nearStage
    rw [if_neg (by omega)]
  · intro hla1
    have hL : 1 ≤ la.toNat := by omega
    have hnhsL : (runProcess (WebRtc_InitBinaryDelayEstimator st) ws).near_history_size
        = la.toNat + 1 := by
      rw [hnhs_run, h5]
      omega
    have hmech1 : (nearStage (runProcess (WebRtc_InitBinaryDelayEstimator st) ws) n).1
        = shiftIn n (runProcess
            (WebRtc_InitBinaryDelayEstimator st) ws).binary_near_history := by
      unfold nearStage
      rw [if_pos (by omega)]
    have hmech2 : (nearStage (runProcess (WebRtc_InitBinaryDelayEstimator st) ws) n).2
        = (shiftIn n (runProcess
              (WebRtc_InitBinaryDelayEstimator st) ws).binary_near_history).getD
            ((runProcess (WebRtc_InitBinaryDelayEstimator st) ws).near_history_size - 1)
            0 := by
      unfold nearStage
      rw [if_pos (by omega)]
    refine ⟨hmech1, hmech2, ?_⟩
    have hinit_nh : (WebRtc_InitBinaryDelayEstimator st).binary_near_history
        = histAfter la.toNat [] := by
      show List.replicate st.near_history_size 0 = _
      rw [h5]
      have : (la + 1).toNat = la.toNat + 1 := by omega
      rw [this]
      simp [histAfter]
    have hrun := runProcess_near_history ws (WebRtc_InitBinaryDelayEstimator st)
      la.toNat [] (by show st.near_history_size = _; rw [h5]; omega) hL hinit_nh
    simp only [List.nil_append] at hrun
    rw [hmech2, hrun, hnhsL]
    have hidx : la.toNat + 1 - 1 = la.toNat := by omega
    rw [hidx]
    have hshift := shiftIn_histAfter la.toNat n (ws.map Prod.snd)
    rw [hshift, histAfter_getD]
    split_ifs with hin hif hif
    · have hidx2 : (ws.map Prod.snd ++ [n]).length - 1 - la.toNat
          = ws.length - la.toNat := by
        simp
      rw [hidx2, List.getD_append _ _ _ _ (by simp; omega)]
    · exfalso
      simp at hin
      omega
    · exfalso
      simp at hin
      omega
    · rfl

theorem claim_C9_create_witness :
    WebRtc_CreateBinaryDelayEstimator 1 1 = some stC ∧
    ((0 ≤ (1 : Int) ∧ 0 ≤ (1 : Int) ∧ 1 < (1 : Int) + 1) ∧
     (stC.history_size : Int) = 1 + 1 ∧
     (stC.near_history_size : Int) = 1 + 1 ∧
     (∀ md2 la2 : Int, (WebRtc_CreateBinaryDelayEstimator md2 la2).isSome
        ↔ (0 ≤ md2 ∧ 0 ≤ la2 ∧ 1 < md2 + la2)) ∧
     WebRtc_CreateBinaryDelayEstimator 0 0 = none ∧
     WebRtc_CreateBinaryDelayEstimator 1 0 = none ∧
     (WebRtc_CreateBinaryDelayEstimator 1 1).isSome) :=
  ⟨by decide, claim_C9_create 1 1 stC (by decide)⟩

theorem claim_C6_floor_witness :
    WebRtc_CreateBinaryDelayEstimator 1 1 = some stC ∧
    ((WebRtc_InitBinaryDelayEstimator stC).minimum_probability = 16384 ∧
     8704 ≤ (runProcess (WebRtc_InitBinaryDelayEstimator stC) []).minimum_probability ∧
     (runProcess (WebRtc_InitBinaryDelayEstimator stC) []).minimum_probability ≤ 16384 ∧
     ((WebRtc_ProcessBinarySpectrum
         (runProcess (WebRtc_InitBinaryDelayEstimator stC) []) 0 0).1).minimum_probability
       ≤ (runProcess (WebRtc_InitBinaryDelayEstimator stC) []).minimum_probability) :=
  ⟨by decide, claim_C6_floor 1 1 stC (by decide) [] (by simp) 0 0⟩

theorem claim_C10_mean_range_witness :
    WebRtc_CreateBinaryDelayEstimator 1 1 = some stC ∧
    ((WebRtc_InitBinaryDelayEstimator stC).mean_bit_counts
       = List.replicate stC.history_size 10240 ∧
     ∀ m ∈ (runProcess (WebRtc_InitBinaryDelayEstimator stC) []).mean_bit_counts,
       0 ≤ m ∧ m < 16384) :=
  ⟨by decide, claim_C10_mean_range 1 1 stC (by decide) [] (by simp)⟩

theorem claim_C8_scan_witness :
    ([0, 0] : List Int) = ((WebRtc_ProcessBinarySpectrum stC 0 0).1).mean_bit_counts ∧
    candidateScan ([0, 0] : List Int) = (0, 0, 0) ∧
    ((0 : Int) = ([0, 0] : List Int).foldl min 16384 ∧
     (0 : Int) = ([0, 0] : List Int).foldl max 0 ∧
     (0 : Int) ≤ 16384 ∧ ((0 : Int) = 16384 ∨ (0 : Int) ∈ ([0, 0] : List Int)) ∧
     (∀ x ∈ ([0, 0] : List Int), (0 : Int) ≤ x) ∧
     (0 : Int) ≤ 0 ∧ ((0 : Int) = 0 ∨ (0 : Int) ∈ ([0, 0] : List Int)) ∧
     (∀ x ∈ ([0, 0] : List Int), x ≤ (0 : Int)) ∧
     ((∀ x ∈ ([0, 0] : List Int), 16384 ≤ x) → (0 : Int) = -1) ∧
     ((∃ x ∈ ([0, 0] : List Int), x < 16384) → ∃ i, i < ([0, 0] : List Int).length ∧
       (0 : Int) = (i : Int) ∧ ([0, 0] : List Int).getD i 0 = 0 ∧
       ∀ j, j < i → (0 : Int) < ([0, 0] : List Int).getD j 0)) :=
  ⟨by decide, by decide, claim_C8_scan stC 0 0 [0, 0] 0 0 0 (by decide) (by decide)⟩

theorem claim_C1_range_witness :
    WebRtc_CreateBinaryDelayEstimator 1 1 = some stC ∧
    (WebRtc_binary_last_delay (WebRtc_InitBinaryDelayEstimator stC) = -2 ∧
     ((WebRtc_ProcessBinarySpectrum
         (runProcess (WebRtc_InitBinaryDelayEstimator stC) []) 0 0).2 = -2 ∨
       (0 ≤ (WebRtc_ProcessBinarySpectrum
           (runProcess (WebRtc_InitBinaryDelayEstimator stC) []) 0 0).2 ∧
        (WebRtc_ProcessBinarySpectrum
           (runProcess (WebRtc_InitBinaryDelayEstimator stC) []) 0 0).2
          < (stC.history_size : Int))) ∧
     (WebRtc_ProcessBinarySpectrum
         (runProcess (WebRtc_InitBinaryDelayEstimator stC) []) 0 0).2 ≠ -1 ∧
     (WebRtc_ProcessBinarySpectrum
         (runProcess (WebRtc_InitBinaryDelayEstimator stC) []) 0 0).2
       = WebRtc_binary_last_delay (WebRtc_ProcessBinarySpectrum
           (runProcess (WebRtc_InitBinaryDelayEstimator stC) []) 0 0).1 ∧
     0 ≤ (candidateScan ((WebRtc_ProcessBinarySpectrum
         (runProcess (WebRtc_InitBinaryDelayEstimator stC) []) 0 0).1).mean_bit_counts).1 ∧
     (candidateScan ((WebRtc_ProcessBinarySpectrum
         (runProcess (WebRtc_InitBinaryDelayEstimator stC) []) 0 0).1).mean_bit_counts).1
       < (stC.history_size : Int) ∧
     (candidateScan ((WebRtc_ProcessBinarySpectrum
         (runProcess (WebRtc_InitBinaryDelayEstimator stC) []) 0 0).1).mean_bit_counts).2.1
       < 16384) :=
  ⟨by decide,
   claim_C1_range 1 1 stC (by decide) [] (by simp) 0 0 (by norm_num) (by norm_num)⟩

theorem claim_C2_decision_witness :
    candidateScan ((WebRtc_ProcessBinarySpectrum stC 0 0).1).mean_bit_counts
      = ((0 : Int), (0 : Int), (0 : Int)) ∧
    ((WebRtc_ProcessBinarySpectrum stC 0 0).1).minimum_probability = 0 ∧
    ((WebRtc_ProcessBinarySpectrum stC 0 0).1).last_delay = 0 ∧
    ((WebRtc_ProcessBinarySpectrum stC 0 0).1).last_delay_probability = 1 ∧
    (((0 : Int) + 1024 < 0 →
       (((0 : Int) < 0 ∨ (0 : Int) < stC.last_delay_probability + 1) → (0 : Int) = 0) ∧
       ((¬ (0 : Int) < 0 ∧ ¬ (0 : Int) < stC.last_delay_probability + 1) →
         (0 : Int) = stC.last_delay) ∧
       ((0 : Int) < stC.last_delay_probability + 1 → (1 : Int) = 0) ∧
       (¬ (0 : Int) < stC.last_delay_probability + 1 →
         (1 : Int) = stC.last_delay_probability + 1)) ∧
     (¬ (0 : Int) + 1024 < 0 →
       (0 : Int) = stC.last_delay ∧ (1 : Int) = stC.last_delay_probability + 1)) :=
  ⟨by decide, by decide, by decide, by decide,
   claim_C2_decision stC 0 0 0 0 0 0 0 1 (by decide) (by decide) (by decide) (by decide)⟩

theorem claim_C3_lookahead_witness :
    WebRtc_CreateBinaryDelayEstimator 1 1 = some stC ∧
    (((1 : Int) = 0 →
       (nearStage (runProcess (WebRtc_InitBinaryDelayEstimator stC) []) 5).2 = 5) ∧
     (1 ≤ (1 : Int) →
       (nearStage (runProcess (WebRtc_InitBinaryDelayEstimator stC) []) 5).1
         = shiftIn 5 (runProcess
             (WebRtc_InitBinaryDelayEstimator stC) []).binary_near_history ∧
       (nearStage (runProcess (WebRtc_InitBinaryDelayEstimator stC) []) 5).2
         = (shiftIn 5 (runProcess
               (WebRtc_InitBinaryDelayEstimator stC) []).binary_near_history).getD
             ((runProcess (WebRtc_InitBinaryDelayEstimator stC) []).near_history_size - 1)
             0 ∧
       (nearStage (runProcess (WebRtc_InitBinaryDelayEstimator stC) []) 5).2
         = (if (1 : Int).toNat ≤ ([] : List (Nat × Nat)).length
            then (([] : List (Nat × Nat)).map Prod.snd).getD
              (([] : List (Nat × Nat)).length - (1 : Int).toNat) 0 else 0))) :=
  ⟨by decide, claim_C3_lookahead 1 1 stC (by decide) [] 5⟩

theorem claim_C4_bitcount_witness :
    (5 : Nat) < 4294967296 ∧ (3 : Nat) < 4294967296 ∧
    (∀ row ∈ ([1, 2] : List Nat), row < 4294967296) ∧
    (BitCount 5 = popcount 5 ∧ BitCount 5 ≤ 32 ∧
     (BitCountComparison 3 [1, 2]).length = ([1, 2] : List Nat).length ∧
     (∀ i, i < ([1, 2] : List Nat).length → (BitCountComparison 3 [1, 2]).getD i 0
         = (popcount (3 ^^^ ([1, 2] : List Nat).getD i 0) : Int))) :=
  ⟨by norm_num, by norm_num, by decide,
   claim_C4_bitcount 5 (by norm_num) 3 (by norm_num) [1, 2] (by decide)⟩

theorem claim_C5_smoothing_witness :
    (WebRtc_InitBinaryDelayEstimator stC).binary_far_history.length
      = (WebRtc_InitBinaryDelayEstimator stC).history_size ∧
    0 < ((WebRtc_ProcessBinarySpectrum
        (WebRtc_InitBinaryDelayEstimator stC) 1 0).1).far_bit_counts.getD 0 0 ∧
    ((WebRtc_ProcessBinarySpectrum
        (WebRtc_InitBinaryDelayEstimator stC) 1 0).1).mean_bit_counts.getD 0 0
      = WebRtc_MeanEstimatorFix
          (((WebRtc_ProcessBinarySpectrum
              (WebRtc_InitBinaryDelayEstimator stC) 1 0).1).bit_counts.getD 0 0 * 512)
          (13 - (3 * ((WebRtc_ProcessBinarySpectrum
              (WebRtc_InitBinaryDelayEstimator stC) 1 0).1).far_bit_counts.getD 0 0)
            >>> 4)
          ((WebRtc_InitBinaryDelayEstimator stC).mean_bit_counts.getD 0 0) :=
  ⟨by decide, by decide,
   claim_C5_smoothing (WebRtc_InitBinaryDelayEstimator stC) 1 0 0 (by decide) (by decide)
     (by decide) (by decide) (by decide) (by decide)⟩

theorem claim_C7_zero_skip_witness :
    ((WebRtc_ProcessBinarySpectrum
        (WebRtc_InitBinaryDelayEstimator stC) 0 0).1).far_bit_counts.getD 0 0 = 0 ∧
    ((WebRtc_ProcessBinarySpectrum
        (WebRtc_InitBinaryDelayEstimator stC) 0 0).1).mean_bit_counts.getD 0 0
      = (WebRtc_InitBinaryDelayEstimator stC).mean_bit_counts.getD 0 0 :=
  ⟨by decide,
   claim_C7_zero_skip (WebRtc_InitBinaryDelayEstimator stC) 0 0 0 (by decide) (by decide)
     (by decide) (by decide) (by decide) (by decide)⟩
